import Mathlib

/-!
Verification of the tinybox key-lifecycle and authenticated-encryption
protocol.  JavaScript strings are modelled as lists of Unicode scalar
values (`JSStr`); byte buffers (`Uint8Array`, `ArrayBuffer`) as lists of
naturals below 256.  Platform primitives that are not part of the
repository (WebCrypto AES-GCM and SHA-256, `JSON`) are modelled from the
specification; everything else is translated from the source.
-/

namespace Tinybox

/-- JS strings modelled as lists of Unicode scalar values. -/
abbrev JSStr := List Nat

/-- Every element of the list is a byte value. -/
def IsByteList (l : List Nat) : Prop := ∀ b ∈ l, b < 256

instance (l : List Nat) : Decidable (IsByteList l) := by unfold IsByteList; infer_instance

/-! ## Base64 (`btoa` / `atob`) -/

/-- The standard base64 alphabet, as character codes:
`A`-`Z`, `a`-`z`, `0`-`9`, `+`, `/`. -/
def b64Alphabet : List Nat :=
  (List.range 26).map (· + 65) ++ (List.range 26).map (· + 97) ++
    (List.range 10).map (· + 48) ++ [43, 47]

/-- Character code for a 6-bit group. -/
def b64Char (n : Nat) : Nat := b64Alphabet.getD n 65

/-- Inverse of `b64Char` on the alphabet; `none` off the alphabet. -/
def b64Code (c : Nat) : Option Nat :=
  if 65 ≤ c ∧ c ≤ 90 then some (c - 65)
  else if 97 ≤ c ∧ c ≤ 122 then some (c - 97 + 26)
  else if 48 ≤ c ∧ c ≤ 57 then some (c - 48 + 52)
  else if c = 43 then some 62
  else if c = 47 then some 63
  else none

/-- `btoa(String.fromCharCode(...bytes))`: base64-encode a byte list,
three bytes at a time, padding the final group with `=` (code 61). -/
def btoaAux : List Nat → JSStr
  | [] => []
  | [a] => [b64Char (a / 4), b64Char (a % 4 * 16), 61, 61]
  | [a, b] => [b64Char (a / 4), b64Char (a % 4 * 16 + b / 16), b64Char (b % 16 * 4), 61]
  | a :: b :: c :: rest =>
      b64Char (a / 4) :: b64Char (a % 4 * 16 + b / 16) ::
        b64Char (b % 16 * 4 + c / 64) :: b64Char (c % 64) :: btoaAux rest

/-- Model of `btoa(String.fromCharCode(...new Uint8Array(buf)))`. -/
def btoa (l : List Nat) : JSStr := btoaAux l

/-- Decode one full (unpadded) base64 group of four characters. -/
def decodeFullGroup (c1 c2 c3 c4 : Nat) : Option (List Nat) :=
  match b64Code c1, b64Code c2, b64Code c3, b64Code c4 with
  | some i1, some i2, some i3, some i4 =>
      some [i1 * 4 + i2 / 16, i2 % 16 * 16 + i3 / 4, i3 % 4 * 64 + i4]
  | _, _, _, _ => none

/-- Decode the final base64 group, which may carry `=` padding. -/
def decodeLastGroup (c1 c2 c3 c4 : Nat) : Option (List Nat) :=
  if c3 = 61 then
    if c4 = 61 then
      match b64Code c1, b64Code c2 with
      | some i1, some i2 => some [i1 * 4 + i2 / 16]
      | _, _ => none
    else none
  else if c4 = 61 then
    match b64Code c1, b64Code c2, b64Code c3 with
    | some i1, some i2, some i3 => some [i1 * 4 + i2 / 16, i2 % 16 * 16 + i3 / 4]
    | _, _, _ => none
  else decodeFullGroup c1 c2 c3 c4

/-- `atob` on canonical input: groups of four characters, with padding
allowed only in the final group; `none` models the thrown
`InvalidCharacterError`. -/
def atobAux : List Nat → Option (List Nat)
  | [] => some []
  | c1 :: c2 :: c3 :: c4 :: rest =>
      if rest.isEmpty then decodeLastGroup c1 c2 c3 c4
      else
        match decodeFullGroup c1 c2 c3 c4, atobAux rest with
        | some g, some r => some (g ++ r)
        | _, _ => none
  | _ => none

/-- Model of `atob(s).split("").map((c) => c.charCodeAt(0))`. -/
def atob (s : JSStr) : Option (List Nat) := atobAux s

theorem b64Code_b64Char {n : Nat} (h : n < 64) : b64Code (b64Char n) = some n := by
  revert h; revert n; decide

theorem b64Char_ne_61 (n : Nat) : b64Char n ≠ 61 := by
  unfold b64Char
  rcases Nat.lt_or_ge n 64 with h | h
  · revert h; revert n; decide
  · rw [List.getD_eq_default]
    · decide
    · have : b64Alphabet.length = 64 := by decide
      omega

theorem b64Char_lt_256 (n : Nat) : b64Char n < 256 := by
  unfold b64Char
  rcases Nat.lt_or_ge n 64 with h | h
  · revert h; revert n; decide
  · rw [List.getD_eq_default]
    · decide
    · have : b64Alphabet.length = 64 := by decide
      omega

theorem decodeFullGroup_enc {a b c : Nat} (ha : a < 256) (hb : b < 256) (hc : c < 256) :
    decodeFullGroup (b64Char (a / 4)) (b64Char (a % 4 * 16 + b / 16))
      (b64Char (b % 16 * 4 + c / 64)) (b64Char (c % 64)) = some [a, b, c] := by
  unfold decodeFullGroup
  rw [b64Code_b64Char (by omega), b64Code_b64Char (by omega),
    b64Code_b64Char (by omega), b64Code_b64Char (by omega)]
  simp only [Option.some.injEq, List.cons.injEq, and_true]
  omega

theorem btoaAux_eq_nil_iff (l : List Nat) : btoaAux l = [] ↔ l = [] := by
  match l with
  | [] => simp [btoaAux]
  | [a] => simp [btoaAux]
  | [a, b] => simp [btoaAux]
  | a :: b :: c :: rest => simp [btoaAux]

theorem atobAux_btoaAux (l : List Nat) (h : IsByteList l) :
    atobAux (btoaAux l) = some l := by
  induction l using btoaAux.induct with
  | case1 => rfl
  | case2 a =>
      have ha : a < 256 := h a (by simp)
      simp only [btoaAux, atobAux, List.isEmpty_nil, decodeLastGroup, if_pos]
      rw [b64Code_b64Char (by omega), b64Code_b64Char (by omega)]
      simp only [Option.some.injEq, List.cons.injEq, and_true]
      omega
  | case3 a b =>
      have ha : a < 256 := h a (by simp)
      have hb : b < 256 := h b (by simp)
      simp only [btoaAux, atobAux, List.isEmpty_nil, decodeLastGroup,
        if_neg (b64Char_ne_61 _), if_pos]
      rw [b64Code_b64Char (by omega), b64Code_b64Char (by omega), b64Code_b64Char (by omega)]
      simp only [Option.some.injEq, List.cons.injEq, and_true]
      omega
  | case4 a b c rest ih =>
      have ha : a < 256 := h a (by simp)
      have hb : b < 256 := h b (by simp)
      have hc : c < 256 := h c (by simp)
      have hrest : IsByteList rest := fun x hx => h x (by simp [hx])
      rcases List.eq_nil_or_concat rest with hnil | ⟨_, _, hne⟩
      · subst hnil
        simp only [btoaAux, atobAux, List.isEmpty_nil, if_true, decodeLastGroup,
          if_neg (b64Char_ne_61 _), if_neg (b64Char_ne_61 _)]
        exact decodeFullGroup_enc ha hb hc
      · have hb' : ¬(btoaAux rest).isEmpty = true := by
          rw [List.isEmpty_iff, btoaAux_eq_nil_iff]
          subst hne; simp
        simp only [btoaAux, atobAux, if_neg hb']
        rw [decodeFullGroup_enc ha hb hc, ih hrest]
        rfl

/-- Base64 decode inverts encode on byte lists. -/
theorem atob_btoa (l : List Nat) (h : IsByteList l) : atob (btoa l) = some l :=
  atobAux_btoaAux l h

theorem btoa_eq_nil_iff (l : List Nat) : btoa l = [] ↔ l = [] :=
  btoaAux_eq_nil_iff l

theorem b64Code_lt {c i : Nat} (h : b64Code c = some i) : i < 64 := by
  unfold b64Code at h
  repeat' split at h
  all_goals first
    | (simp only [Option.some.injEq] at h; omega)
    | (exact absurd h (by simp))

theorem decodeFullGroup_bytes {c1 c2 c3 c4 : Nat} {g : List Nat}
    (h : decodeFullGroup c1 c2 c3 c4 = some g) : IsByteList g := by
  unfold decodeFullGroup at h
  cases h1 : b64Code c1 with
  | none => simp [h1] at h
  | some i1 =>
    cases h2 : b64Code c2 with
    | none => simp [h1, h2] at h
    | some i2 =>
      cases h3 : b64Code c3 with
      | none => simp [h1, h2, h3] at h
      | some i3 =>
        cases h4 : b64Code c4 with
        | none => simp [h1, h2, h3, h4] at h
        | some i4 =>
          have l1 := b64Code_lt h1
          have l2 := b64Code_lt h2
          have l3 := b64Code_lt h3
          have l4 := b64Code_lt h4
          simp only [h1, h2, h3, h4, Option.some.injEq] at h
          subst h
          intro x hx
          simp only [List.mem_cons, List.mem_singleton, List.not_mem_nil, or_false] at hx
          rcases hx with h | h | h <;> omega

theorem decodeLastGroup_bytes {c1 c2 c3 c4 : Nat} {g : List Nat}
    (h : decodeLastGroup c1 c2 c3 c4 = some g) : IsByteList g := by
  unfold decodeLastGroup at h
  split at h
  · split at h
    · cases h1 : b64Code c1 with
      | none => simp [h1] at h
      | some i1 =>
        cases h2 : b64Code c2 with
        | none => simp [h1, h2] at h
        | some i2 =>
          have l1 := b64Code_lt h1
          have l2 := b64Code_lt h2
          simp only [h1, h2, Option.some.injEq] at h
          subst h
          intro x hx
          simp only [List.mem_singleton] at hx
          omega
    · simp at h
  · split at h
    · cases h1 : b64Code c1 with
      | none => simp [h1] at h
      | some i1 =>
        cases h2 : b64Code c2 with
        | none => simp [h1, h2] at h
        | some i2 =>
          cases h3 : b64Code c3 with
          | none => simp [h1, h2, h3] at h
          | some i3 =>
            have l1 := b64Code_lt h1
            have l2 := b64Code_lt h2
            have l3 := b64Code_lt h3
            simp only [h1, h2, h3, Option.some.injEq] at h
            subst h
            intro x hx
            simp only [List.mem_cons, List.not_mem_nil, or_false, List.mem_singleton] at hx
            rcases hx with h | h <;> omega
    · exact decodeFullGroup_bytes h

theorem atob_bytes {s : JSStr} {l : List Nat} (h : atob s = some l) :
    IsByteList l := by
  unfold atob at h
  induction s using atobAux.induct generalizing l with
  | case1 =>
      simp only [atobAux, Option.some.injEq] at h
      subst h; intro b hb; simp at hb
  | case2 c1 c2 c3 c4 rest hrest =>
      simp only [atobAux, if_pos hrest] at h
      exact decodeLastGroup_bytes h
  | case3 c1 c2 c3 c4 rest hrest g r hr hg ih =>
      simp only [atobAux, if_neg hrest, hg, hr, Option.some.injEq] at h
      subst h
      intro x hx
      rcases List.mem_append.mp hx with hx | hx
      · exact decodeFullGroup_bytes hg x hx
      · exact ih hr x hx
  | case4 c1 c2 c3 c4 rest hrest hfail ih =>
      simp only [atobAux, if_neg hrest] at h
      cases hg : decodeFullGroup c1 c2 c3 c4 with
      | none => simp [hg] at h
      | some g =>
        cases hr : atobAux rest with
        | none => simp [hg, hr] at h
        | some r => exact (hfail g r hg hr).elim
  | case5 t hnil h4 =>
      rcases t with _ | ⟨a, t⟩
      · exact absurd rfl hnil
      rcases t with _ | ⟨b, t⟩
      · rw [show atobAux [a] = none from rfl] at h
        exact absurd h (by simp)
      rcases t with _ | ⟨c, t⟩
      · rw [show atobAux [a, b] = none from rfl] at h
        exact absurd h (by simp)
      rcases t with _ | ⟨d, t⟩
      · rw [show atobAux [a, b, c] = none from rfl] at h
        exact absurd h (by simp)
      · exact absurd rfl (h4 a b c d t)

/-! ## UTF-8 (`TextEncoder` / `TextDecoder`) -/

/-- A valid Unicode scalar value: in range and not a surrogate. -/
def IsScalar (c : Nat) : Prop := c < 0x110000 ∧ ¬(0xD800 ≤ c ∧ c < 0xE000)

instance (c : Nat) : Decidable (IsScalar c) := by unfold IsScalar; infer_instance

/-- A JS string whose code points are all valid scalar values. -/
def IsScalarStr (s : JSStr) : Prop := ∀ c ∈ s, IsScalar c

instance (s : JSStr) : Decidable (IsScalarStr s) := by unfold IsScalarStr; infer_instance

/-- UTF-8 encoding of a single scalar value (1 to 4 bytes). -/
def utf8EncodeChar (c : Nat) : List Nat :=
  if c < 0x80 then [c]
  else if c < 0x800 then [0xC0 + c / 64, 0x80 + c % 64]
  else if c < 0x10000 then [0xE0 + c / 4096, 0x80 + c / 64 % 64, 0x80 + c % 64]
  else [0xF0 + c / 262144, 0x80 + c / 4096 % 64, 0x80 + c / 64 % 64, 0x80 + c % 64]

/-- Model of `new TextEncoder().encode(s)`. -/
def utf8Encode (s : JSStr) : List Nat := s.flatMap utf8EncodeChar

/-- Is the byte a UTF-8 continuation byte (`10xxxxxx`)? -/
def IsCont (b : Nat) : Prop := 0x80 ≤ b ∧ b < 0xC0

instance (b : Nat) : Decidable (IsCont b) := by unfold IsCont; infer_instance

/-- Continue a 2-byte UTF-8 sequence headed by `b`. -/
def utf8Cont1 (b : Nat) : List Nat → Option (Nat × List Nat)
  | b2 :: r => if IsCont b2 then some ((b - 0xC0) * 64 + (b2 - 0x80), r) else none
  | [] => none

/-- Continue a 3-byte UTF-8 sequence headed by `b`, rejecting overlong
forms and surrogates. -/
def utf8Cont2 (b : Nat) : List Nat → Option (Nat × List Nat)
  | b2 :: b3 :: r =>
      if IsCont b2 ∧ IsCont b3 then
        if (b - 0xE0) * 4096 + (b2 - 0x80) * 64 + (b3 - 0x80) < 0x800 ∨
            (0xD800 ≤ (b - 0xE0) * 4096 + (b2 - 0x80) * 64 + (b3 - 0x80) ∧
              (b - 0xE0) * 4096 + (b2 - 0x80) * 64 + (b3 - 0x80) < 0xE000) then none
        else some ((b - 0xE0) * 4096 + (b2 - 0x80) * 64 + (b3 - 0x80), r)
      else none
  | _ => none

/-- Continue a 4-byte UTF-8 sequence headed by `b`, rejecting overlong
and out-of-range forms. -/
def utf8Cont3 (b : Nat) : List Nat → Option (Nat × List Nat)
  | b2 :: b3 :: b4 :: r =>
      if IsCont b2 ∧ IsCont b3 ∧ IsCont b4 then
        if (b - 0xF0) * 262144 + (b2 - 0x80) * 4096 + (b3 - 0x80) * 64 + (b4 - 0x80) < 0x10000 ∨
            0x110000 ≤ (b - 0xF0) * 262144 + (b2 - 0x80) * 4096 + (b3 - 0x80) * 64 + (b4 - 0x80) then
          none
        else some ((b - 0xF0) * 262144 + (b2 - 0x80) * 4096 + (b3 - 0x80) * 64 + (b4 - 0x80), r)
      else none
  | _ => none

/-- Decode one scalar value from the front of a strict UTF-8 byte
stream, returning it with the remaining bytes. -/
def utf8Step : List Nat → Option (Nat × List Nat)
  | [] => none
  | b :: rest =>
      if b < 0x80 then some (b, rest)
      else if b < 0xC2 then none
      else if b < 0xE0 then utf8Cont1 b rest
      else if b < 0xF0 then utf8Cont2 b rest
      else if b < 0xF5 then utf8Cont3 b rest
      else none

theorem utf8Cont1_length {b : Nat} {l r : List Nat} {c : Nat}
    (h : utf8Cont1 b l = some (c, r)) : r.length < l.length := by
  match l with
  | [] => simp [utf8Cont1] at h
  | b2 :: t =>
      simp only [utf8Cont1] at h
      split at h
      · simp only [Option.some.injEq, Prod.mk.injEq] at h
        obtain ⟨-, h⟩ := h
        subst h; simp
      · simp at h

theorem utf8Cont2_length {b : Nat} {l r : List Nat} {c : Nat}
    (h : utf8Cont2 b l = some (c, r)) : r.length < l.length := by
  match l with
  | [] => simp [utf8Cont2] at h
  | [b2] => simp [utf8Cont2] at h
  | b2 :: b3 :: t =>
      simp only [utf8Cont2] at h
      split at h
      · split at h
        · simp at h
        · simp only [Option.some.injEq, Prod.mk.injEq] at h
          obtain ⟨-, h⟩ := h
          subst h; simp only [List.length_cons]; omega
      · simp at h

theorem utf8Cont3_length {b : Nat} {l r : List Nat} {c : Nat}
    (h : utf8Cont3 b l = some (c, r)) : r.length < l.length := by
  match l with
  | [] => simp [utf8Cont3] at h
  | [b2] => simp [utf8Cont3] at h
  | [b2, b3] => simp [utf8Cont3] at h
  | b2 :: b3 :: b4 :: t =>
      simp only [utf8Cont3] at h
      split at h
      · split at h
        · simp at h
        · simp only [Option.some.injEq, Prod.mk.injEq] at h
          obtain ⟨-, h⟩ := h
          subst h; simp only [List.length_cons]; omega
      · simp at h

theorem utf8Step_length {l : List Nat} {c : Nat} {r : List Nat}
    (h : utf8Step l = some (c, r)) : r.length < l.length := by
  match l with
  | [] => simp [utf8Step] at h
  | b :: rest =>
      simp only [utf8Step] at h
      split at h
      · simp only [Option.some.injEq, Prod.mk.injEq] at h
        obtain ⟨-, h⟩ := h
        subst h; simp
      · split at h
        · simp at h
        · split at h
          · exact Nat.lt_trans (utf8Cont1_length h) (by simp)
          · split at h
            · exact Nat.lt_trans (utf8Cont2_length h) (by simp)
            · split at h
              · exact Nat.lt_trans (utf8Cont3_length h) (by simp)
              · simp at h

/-- Fuel-driven strict UTF-8 decode loop; `fuel` bounds the number of
decoded scalars. -/
def utf8DecodeFuel : Nat → List Nat → Option JSStr
  | _, [] => some []
  | 0, _ :: _ => none
  | fuel + 1, b :: rest =>
      (utf8Step (b :: rest)).bind fun cr => (utf8DecodeFuel fuel cr.2).map (cr.1 :: ·)

/-- Strict UTF-8 decoding of a whole byte stream: rejects truncated
sequences, stray continuation bytes, overlong forms, surrogates and
out-of-range values. -/
def utf8Decode (l : List Nat) : Option JSStr := utf8DecodeFuel l.length l

theorem utf8DecodeFuel_succ_cons (fuel b : Nat) (rest : List Nat) :
    utf8DecodeFuel (fuel + 1) (b :: rest) =
      (utf8Step (b :: rest)).bind fun cr => (utf8DecodeFuel fuel cr.2).map (cr.1 :: ·) := rfl

theorem utf8DecodeFuel_irrel {f1 f2 : Nat} {l : List Nat}
    (h1 : l.length ≤ f1) (h2 : l.length ≤ f2) :
    utf8DecodeFuel f1 l = utf8DecodeFuel f2 l := by
  induction f1 generalizing f2 l with
  | zero =>
      cases l with
      | nil => cases f2 <;> rfl
      | cons b rest => simp at h1
  | succ g1 ih =>
      cases l with
      | nil => cases f2 <;> rfl
      | cons b rest =>
          cases f2 with
          | zero => simp at h2
          | succ g2 =>
              rw [utf8DecodeFuel_succ_cons, utf8DecodeFuel_succ_cons]
              cases hs : utf8Step (b :: rest) with
              | none => rfl
              | some cr =>
                  obtain ⟨c, r⟩ := cr
                  have hlen := utf8Step_length hs
                  simp only [List.length_cons] at h1 h2 hlen
                  simp only [Option.some_bind']
                  rw [@ih g2 r (by omega) (by omega)]

theorem utf8Decode_step {l : List Nat} {c : Nat} {r : List Nat}
    (h : utf8Step l = some (c, r)) :
    utf8Decode l = (utf8Decode r).map (c :: ·) := by
  cases l with
  | nil => simp [utf8Step] at h
  | cons b rest =>
      have hlen := utf8Step_length h
      have hlen' : r.length ≤ rest.length := by
        simp only [List.length_cons] at hlen; omega
      unfold utf8Decode
      simp only [List.length_cons]
      rw [utf8DecodeFuel_succ_cons]
      simp only [h, Option.some_bind']
      rw [utf8DecodeFuel_irrel hlen' le_rfl]

/-- Model of `new TextDecoder().decode(bytes)`, totalized: the
replacement-character handling of invalid input is collapsed to `[]`,
which no theorem below depends on. -/
def textDecode (bs : List Nat) : JSStr := (utf8Decode bs).getD []

theorem utf8EncodeChar_bytes (c : Nat) (h : IsScalar c) : IsByteList (utf8EncodeChar c) := by
  obtain ⟨h1, _⟩ := h
  unfold utf8EncodeChar
  split
  · intro x hx; simp only [List.mem_singleton] at hx; omega
  · split
    · intro x hx
      simp only [List.mem_cons, List.not_mem_nil, or_false] at hx
      rcases hx with h | h <;> omega
    · split
      · intro x hx
        simp only [List.mem_cons, List.not_mem_nil, or_false] at hx
        rcases hx with h | h | h <;> omega
      · intro x hx
        simp only [List.mem_cons, List.not_mem_nil, or_false] at hx
        rcases hx with h | h | h | h <;> omega

theorem utf8Encode_bytes (s : JSStr) (h : IsScalarStr s) : IsByteList (utf8Encode s) := by
  intro x hx
  rcases List.mem_flatMap.mp hx with ⟨c, hc, hxc⟩
  exact utf8EncodeChar_bytes c (h c hc) x hxc

theorem utf8Step_enc (c : Nat) (h : IsScalar c) (rest : List Nat) :
    utf8Step (utf8EncodeChar c ++ rest) = some (c, rest) := by
  obtain ⟨hlt, hsur⟩ := h
  unfold utf8EncodeChar
  split
  · rename_i h1
    simp only [List.cons_append, List.nil_append]
    rw [utf8Step, if_pos h1]
  · split
    · rename_i h1 h2
      simp only [List.cons_append, List.nil_append]
      rw [utf8Step,
        if_neg (show ¬(0xC0 + c / 64 < 0x80) by omega),
        if_neg (show ¬(0xC0 + c / 64 < 0xC2) by omega),
        if_pos (show 0xC0 + c / 64 < 0xE0 by omega)]
      rw [utf8Cont1, if_pos (show IsCont (0x80 + c % 64) by unfold IsCont; omega)]
      have hval : (0xC0 + c / 64 - 0xC0) * 64 + (0x80 + c % 64 - 0x80) = c := by omega
      rw [hval]
    · split
      · rename_i h1 h2 h3
        have hval : (0xE0 + c / 4096 - 0xE0) * 4096 + (0x80 + c / 64 % 64 - 0x80) * 64 +
            (0x80 + c % 64 - 0x80) = c := by
          have e1 : c / 64 / 64 = c / 4096 := by rw [Nat.div_div_eq_div_mul]
          omega
        simp only [List.cons_append, List.nil_append]
        rw [utf8Step,
          if_neg (show ¬(0xE0 + c / 4096 < 0x80) by omega),
          if_neg (show ¬(0xE0 + c / 4096 < 0xC2) by omega),
          if_neg (show ¬(0xE0 + c / 4096 < 0xE0) by omega),
          if_pos (show 0xE0 + c / 4096 < 0xF0 by omega)]
        rw [utf8Cont2, if_pos (And.intro
          (show IsCont (0x80 + c / 64 % 64) by unfold IsCont; omega)
          (show IsCont (0x80 + c % 64) by unfold IsCont; omega))]
        rw [hval, if_neg (by omega)]
      · rename_i h1 h2 h3
        have hval : (0xF0 + c / 262144 - 0xF0) * 262144 + (0x80 + c / 4096 % 64 - 0x80) * 4096 +
            (0x80 + c / 64 % 64 - 0x80) * 64 + (0x80 + c % 64 - 0x80) = c := by
          have e1 : c / 64 / 64 = c / 4096 := by rw [Nat.div_div_eq_div_mul]
          have e2 : c / 4096 / 64 = c / 262144 := by rw [Nat.div_div_eq_div_mul]
          omega
        simp only [List.cons_append, List.nil_append]
        rw [utf8Step,
          if_neg (show ¬(0xF0 + c / 262144 < 0x80) by omega),
          if_neg (show ¬(0xF0 + c / 262144 < 0xC2) by omega),
          if_neg (show ¬(0xF0 + c / 262144 < 0xE0) by omega),
          if_neg (show ¬(0xF0 + c / 262144 < 0xF0) by omega),
          if_pos (show 0xF0 + c / 262144 < 0xF5 by
            have : c / 262144 ≤ 4 := by omega
            omega)]
        rw [utf8Cont3, if_pos (And.intro
          (show IsCont (0x80 + c / 4096 % 64) by unfold IsCont; omega)
          (And.intro (show IsCont (0x80 + c / 64 % 64) by unfold IsCont; omega)
            (show IsCont (0x80 + c % 64) by unfold IsCont; omega)))]
        rw [hval, if_neg (by omega)]

/-- UTF-8 decode inverts encode on valid scalar strings. -/
theorem utf8Decode_utf8Encode (s : JSStr) (h : IsScalarStr s) :
    utf8Decode (utf8Encode s) = some s := by
  induction s with
  | nil => rfl
  | cons c cs ih =>
      have hc : IsScalar c := h c (by simp)
      have hcs : IsScalarStr cs := fun x hx => h x (by simp [hx])
      unfold utf8Encode at ih ⊢
      rw [List.flatMap_cons, utf8Decode_step (utf8Step_enc c hc _), ih hcs]
      rfl

theorem textDecode_utf8Encode (s : JSStr) (h : IsScalarStr s) :
    textDecode (utf8Encode s) = s := by
  unfold textDecode
  rw [utf8Decode_utf8Encode s h]
  rfl

/-! ## AES-GCM (modelled from the spec)

WebCrypto's AES-GCM is a platform primitive, not repository code.  It is
modelled symbolically, as the specification describes it: encryption
produces a byte string determined by `(key, iv, payload)`, and decryption
authenticates — it recovers the payload exactly when called with the
same key and nonce, and fails (`AuthenticationFailed`) otherwise. -/

/-- Self-delimiting byte-level framing used by the symbolic cipher: each
byte becomes two nibbles (both < 16), then a 255 end marker. -/
def nibbles : List Nat → List Nat
  | [] => [255]
  | b :: t => b / 16 :: b % 16 :: nibbles t

/-- Read one `nibbles` frame, returning the framed bytes and the rest. -/
def readNibbles : List Nat → Option (List Nat × List Nat)
  | [] => none
  | x :: rest =>
      if x = 255 then some ([], rest)
      else
        match rest with
        | [] => none
        | lo :: rest2 => (readNibbles rest2).map fun p => ((x * 16 + lo) :: p.1, p.2)

theorem readNibbles_cons2 (x lo : Nat) (rest2 : List Nat) :
    readNibbles (x :: lo :: rest2) =
      if x = 255 then some ([], lo :: rest2)
      else (readNibbles rest2).map fun p => ((x * 16 + lo) :: p.1, p.2) := rfl

theorem readNibbles_nibbles (l : List Nat) (h : IsByteList l) (rest : List Nat) :
    readNibbles (nibbles l ++ rest) = some (l, rest) := by
  induction l with
  | nil =>
      show readNibbles (255 :: rest) = some ([], rest)
      rw [readNibbles.eq_def]
      simp
  | cons b t ih =>
      have hb : b < 256 := h b (by simp)
      have ht : IsByteList t := fun x hx => h x (by simp [hx])
      show readNibbles (b / 16 :: b % 16 :: (nibbles t ++ rest)) = _
      rw [readNibbles_cons2, if_neg (by omega), ih ht]
      have hb' : b / 16 * 16 + b % 16 = b := by omega
      simp only [Option.map_some', hb']

theorem nibbles_bytes (l : List Nat) (hl : IsByteList l) : IsByteList (nibbles l) := by
  induction l with
  | nil => intro x hx; simp only [nibbles, List.mem_singleton] at hx; omega
  | cons b t ih =>
      have hb : b < 256 := hl b (by simp)
      have ht : IsByteList t := fun y hy => hl y (by simp [hy])
      intro x hx
      simp only [nibbles, List.mem_cons] at hx
      rcases hx with h | h | h
      · omega
      · omega
      · exact ih ht x h

/-- Modelled from the spec (§4.2): `crypto.subtle.encrypt` with AES-GCM.
The ciphertext (which embeds the authentication tag) is a byte string
determined by key, nonce and payload. -/
def aesGcmEncrypt (key iv data : List Nat) : List Nat :=
  nibbles key ++ (nibbles iv ++ data)

/-- Modelled from the spec (§4.2): `crypto.subtle.decrypt` with AES-GCM.
Returns the payload exactly when the tag verifies — i.e. when the same
key and nonce that produced the ciphertext are supplied; `none` models
the thrown `OperationError` (AuthenticationFailed). -/
def aesGcmDecrypt (key iv ct : List Nat) : Option (List Nat) :=
  (readNibbles ct).bind fun kr =>
    (readNibbles kr.2).bind fun ir =>
      if kr.1 = key ∧ ir.1 = iv then some ir.2 else none

theorem aesGcmDecrypt_enc (key iv data : List Nat) (hk : IsByteList key)
    (hi : IsByteList iv) :
    aesGcmDecrypt key iv (aesGcmEncrypt key iv data) = some data := by
  unfold aesGcmDecrypt aesGcmEncrypt
  rw [readNibbles_nibbles key hk]
  simp only [Option.some_bind']
  rw [readNibbles_nibbles iv hi]
  simp only [Option.some_bind']
  simp

theorem aesGcmDecrypt_wrong_key (key key' iv iv' data : List Nat) (hk : IsByteList key)
    (hi : IsByteList iv) (hne : key ≠ key' ∨ iv ≠ iv') :
    aesGcmDecrypt key' iv' (aesGcmEncrypt key iv data) = none := by
  unfold aesGcmDecrypt aesGcmEncrypt
  rw [readNibbles_nibbles key hk]
  simp only [Option.some_bind']
  rw [readNibbles_nibbles iv hi]
  simp only [Option.some_bind']
  rw [if_neg]
  intro hcontra
  rcases hne with h | h
  · exact h hcontra.1
  · exact h hcontra.2

theorem aesGcmEncrypt_bytes (key iv data : List Nat) (hk : IsByteList key)
    (hi : IsByteList iv) (hd : IsByteList data) :
    IsByteList (aesGcmEncrypt key iv data) := by
  intro x hx
  unfold aesGcmEncrypt at hx
  rcases List.mem_append.mp hx with h | h
  · exact nibbles_bytes key hk x h
  · rcases List.mem_append.mp h with h | h
    · exact nibbles_bytes iv hi x h
    · exact hd x h

/-! ## Crypto wrappers (source: the E2E encryption utilities module) -/

/-- Result of `encryptText`: base64 ciphertext and base64 nonce. -/
structure EncryptedTextResult where
  encryptedData : JSStr
  iv : JSStr
deriving DecidableEq

/-- Failure kinds of the decryption wrappers: a base64 decoding error
(`InvalidCharacterError` from `atob`) or an AES-GCM authentication
failure (`OperationError` from `crypto.subtle.decrypt`). -/
inductive DecryptError
  | invalidBase64
  | authenticationFailed
deriving DecidableEq

/-- `encryptText(text, key)`: UTF-8 encode, AES-GCM encrypt under a
fresh 12-byte nonce (passed explicitly as `ivBytes`, standing for
`crypto.getRandomValues(new Uint8Array(12))`), base64 both outputs. -/
def encryptText (text : JSStr) (key : List Nat) (ivBytes : List Nat) : EncryptedTextResult :=
  { encryptedData := btoa (aesGcmEncrypt key ivBytes (utf8Encode text)),
    iv := btoa ivBytes }

/-- `decryptText(encryptedData, key, iv)`: base64-decode ciphertext and
nonce, AES-GCM decrypt, UTF-8 decode. -/
def decryptText (encryptedData : JSStr) (key : List Nat) (iv : JSStr) :
    Except DecryptError JSStr :=
  match atob encryptedData with
  | none => .error .invalidBase64
  | some encryptedBytes =>
      match atob iv with
      | none => .error .invalidBase64
      | some ivBytes =>
          match aesGcmDecrypt key ivBytes encryptedBytes with
          | none => .error .authenticationFailed
          | some pt => .ok (textDecode pt)

/-- Result of `encryptFile`: raw ciphertext buffer and raw 12-byte nonce. -/
structure EncryptedFileResult where
  encryptedData : List Nat
  iv : List Nat
deriving DecidableEq

/-- `encryptFile(file, key)`: AES-GCM encrypt the file bytes under a
fresh 12-byte nonce (passed explicitly as `ivBytes`). -/
def encryptFile (fileData : List Nat) (key : List Nat) (ivBytes : List Nat) :
    EncryptedFileResult :=
  { encryptedData := aesGcmEncrypt key ivBytes fileData, iv := ivBytes }

/-- `decryptData(encryptedData, key, iv)`: AES-GCM decrypt raw bytes;
`none` models the thrown `OperationError`. -/
def decryptData (encryptedData : List Nat) (key : List Nat) (iv : List Nat) :
    Option (List Nat) :=
  aesGcmDecrypt key iv encryptedData

/-- `exportKey(key)`: base64 of the raw key bytes. -/
def exportKey (key : List Nat) : JSStr := btoa key

/-- `importKey(keyString)`: base64-decode and import as an AES-GCM key;
WebCrypto rejects byte lengths other than 16, 24 or 32 (`DataError`),
which the spec calls `MalformedKey`. -/
def importKey (keyString : JSStr) : Option (List Nat) :=
  (atob keyString).bind fun keyData =>
    if keyData.length = 16 ∨ keyData.length = 24 ∨ keyData.length = 32 then some keyData
    else none

/-! ## SHA-256 (modelled from the spec) and the public index -/

/-- Modelled from the spec (§4.1): `crypto.subtle.digest("SHA-256", _)`
is a platform primitive; it is modelled as a concrete deterministic
32-byte digest of the input bytes. -/
def sha256 (data : List Nat) : List Nat :=
  (List.range 32).map fun i =>
    (data.foldl (fun acc b => (acc * 31 + b + 7) % 65521) ((i * 2654435761) % 65521) + i) % 256

theorem sha256_length (data : List Nat) : (sha256 data).length = 32 := by
  simp [sha256]

theorem sha256_bytes (data : List Nat) : IsByteList (sha256 data) := by
  intro x hx
  unfold sha256 at hx
  rcases List.mem_map.mp hx with ⟨i, -, hi⟩
  omega

/-- `b.toString(16)`: lower-case hex digits, code of digit `n`. -/
def hexDigit (n : Nat) : Nat := if n < 10 then 48 + n else 87 + n

/-- Fuel-driven hex rendering; `fuel ≥ n` always suffices. -/
def natToHexAux : Nat → Nat → JSStr
  | 0, n => [hexDigit n]
  | fuel + 1, n => if n < 16 then [hexDigit n] else natToHexAux fuel (n / 16) ++ [hexDigit (n % 16)]

/-- `n.toString(16)` for a natural number. -/
def natToHex (n : Nat) : JSStr := natToHexAux n n

/-- `s.padStart(2, "0")`. -/
def padStart2 (s : JSStr) : JSStr := List.replicate (2 - s.length) 48 ++ s

/-- `generateKeyHash(keyString)`: SHA-256 over the UTF-8 bytes of the
serialized key, first 4 bytes rendered as 8 lower-case hex characters. -/
def generateKeyHash (keyString : JSStr) : JSStr :=
  ((sha256 (utf8Encode keyString)).take 4).flatMap fun b => padStart2 (natToHex b)

/-- A hex-digit character code (`0`-`9` or `a`-`f`). -/
def IsHexDigitCode (c : Nat) : Prop := (48 ≤ c ∧ c ≤ 57) ∨ (97 ≤ c ∧ c ≤ 102)

theorem natToHexAux_lt_16 {f n : Nat} (h : n < 16) : natToHexAux f n = [hexDigit n] := by
  cases f with
  | zero => rfl
  | succ g => rw [natToHexAux, if_pos h]

theorem natToHex_lt_16 {n : Nat} (h : n < 16) : natToHex n = [hexDigit n] :=
  natToHexAux_lt_16 h

theorem natToHex_byte_length {b : Nat} (h : b < 256) :
    (natToHex b).length = 1 ∨ (natToHex b).length = 2 := by
  by_cases h16 : b < 16
  · left; rw [natToHex_lt_16 h16]; rfl
  · right
    obtain ⟨m, hm⟩ : ∃ m, b = m + 1 := ⟨b - 1, by omega⟩
    unfold natToHex
    rw [hm, natToHexAux, if_neg (hm ▸ h16), natToHexAux_lt_16 (by omega)]
    rfl

theorem padStart2_natToHex_length {b : Nat} (h : b < 256) :
    (padStart2 (natToHex b)).length = 2 := by
  unfold padStart2
  rcases natToHex_byte_length h with h1 | h1 <;> rw [h1] <;> simp [h1]

theorem hexDigit_isHex {n : Nat} (h : n < 16) : IsHexDigitCode (hexDigit n) := by
  unfold hexDigit IsHexDigitCode
  split <;> omega

theorem natToHex_isHex {b : Nat} (h : b < 256) :
    ∀ c ∈ natToHex b, IsHexDigitCode c := by
  intro c hc
  by_cases h16 : b < 16
  · rw [natToHex_lt_16 h16] at hc
    simp only [List.mem_singleton] at hc
    subst hc
    exact hexDigit_isHex h16
  · obtain ⟨m, hm⟩ : ∃ m, b = m + 1 := ⟨b - 1, by omega⟩
    unfold natToHex at hc
    rw [hm, natToHexAux, if_neg (hm ▸ h16), natToHexAux_lt_16 (by omega)] at hc
    simp only [List.cons_append, List.nil_append, List.mem_cons, List.not_mem_nil,
      or_false] at hc
    rcases hc with hc | hc <;> subst hc
    · exact hexDigit_isHex (by omega)
    · exact hexDigit_isHex (by omega)

theorem padStart2_natToHex_isHex {b : Nat} (h : b < 256) :
    ∀ c ∈ padStart2 (natToHex b), IsHexDigitCode c := by
  intro c hc
  unfold padStart2 at hc
  rcases List.mem_append.mp hc with hc | hc
  · have := List.eq_of_mem_replicate hc
    subst this
    unfold IsHexDigitCode
    omega
  · exact natToHex_isHex h c hc

theorem length_flatMap_const (l : List Nat) (f : Nat → JSStr) (k : Nat)
    (h : ∀ b ∈ l, (f b).length = k) : (l.flatMap f).length = k * l.length := by
  induction l with
  | nil => simp
  | cons a t ih =>
      rw [List.flatMap_cons, List.length_append, h a (by simp),
        ih (fun b hb => h b (by simp [hb])), List.length_cons]
      ring

/-- `generateKeyHash` always returns exactly 8 characters. -/
theorem generateKeyHash_length (keyString : JSStr) :
    (generateKeyHash keyString).length = 8 := by
  unfold generateKeyHash
  rw [length_flatMap_const _ _ 2 (fun b hb =>
    padStart2_natToHex_length (sha256_bytes _ b (List.mem_of_mem_take hb)))]
  rw [List.length_take, sha256_length]
  rfl

/-- `publicIndex(Secret)` in the spec's terms: the key hash computed over
the serialized (base64) key string, as `KeyManager.setKey` does via
`generateKeyHash(keyString)`. -/
def publicIndex (key : List Nat) : JSStr := generateKeyHash (exportKey key)

theorem btoa_bytes_list (l : List Nat) : IsByteList (btoa l) := by
  unfold btoa
  induction l using btoaAux.induct with
  | case1 => intro x hx; simp [btoaAux] at hx
  | case2 a =>
      intro x hx
      simp only [btoaAux, List.mem_cons, List.not_mem_nil, or_false] at hx
      rcases hx with h | h | h | h <;> subst h <;> first | exact b64Char_lt_256 _ | omega
  | case3 a b =>
      intro x hx
      simp only [btoaAux, List.mem_cons, List.not_mem_nil, or_false] at hx
      rcases hx with h | h | h | h <;> subst h <;> first | exact b64Char_lt_256 _ | omega
  | case4 a b c rest ih =>
      intro x hx
      simp only [btoaAux, List.mem_cons] at hx
      rcases hx with h | h | h | h | h
      · subst h; exact b64Char_lt_256 _
      · subst h; exact b64Char_lt_256 _
      · subst h; exact b64Char_lt_256 _
      · subst h; exact b64Char_lt_256 _
      · exact ih x h

theorem decryptText_encryptText (p : JSStr) (key iv : List Nat)
    (hp : IsScalarStr p) (hk : IsByteList key) (hiv : IsByteList iv) :
    decryptText (encryptText p key iv).encryptedData key (encryptText p key iv).iv =
      Except.ok p := by
  have hct : IsByteList (aesGcmEncrypt key iv (utf8Encode p)) :=
    aesGcmEncrypt_bytes key iv _ hk hiv (utf8Encode_bytes p hp)
  unfold encryptText decryptText
  simp only [atob_btoa _ hct, atob_btoa iv hiv, aesGcmDecrypt_enc key iv _ hk hiv,
    textDecode_utf8Encode p hp]

/-- C1: encrypt-then-decrypt round trip under the same key and the
returned nonce recovers the payload, on the text path
(`encryptText`/`decryptText`, via base64) and on the binary file path
(`encryptFile`/`decryptData`). -/
theorem aead_roundtrip (p : JSStr) (fileData : List Nat) (key iv : List Nat)
    (hp : IsScalarStr p) (hfile : IsByteList fileData) (hk : IsByteList key)
    (hklen : key.length = 32) (hivlen : iv.length = 12) (hiv : IsByteList iv) :
    decryptText (encryptText p key iv).encryptedData key (encryptText p key iv).iv =
      Except.ok p ∧
    decryptData (encryptFile fileData key iv).encryptedData key
      (encryptFile fileData key iv).iv = some fileData := by
  constructor
  · exact decryptText_encryptText p key iv hp hk hiv
  · unfold encryptFile decryptData
    exact aesGcmDecrypt_enc key iv fileData hk hiv

/-- C1 witness: the round trip evaluated at a concrete payload, file,
key and nonce. -/
theorem aead_roundtrip_witness :
    decryptText (encryptText [104, 105] (List.replicate 32 7) (List.replicate 12 3)).encryptedData
        (List.replicate 32 7)
        (encryptText [104, 105] (List.replicate 32 7) (List.replicate 12 3)).iv =
      Except.ok [104, 105] ∧
    decryptData (encryptFile [1, 2, 3] (List.replicate 32 7) (List.replicate 12 3)).encryptedData
        (List.replicate 32 7)
        (encryptFile [1, 2, 3] (List.replicate 32 7) (List.replicate 12 3)).iv =
      some [1, 2, 3] :=
  aead_roundtrip [104, 105] [1, 2, 3] (List.replicate 32 7) (List.replicate 12 3)
    (by decide) (by decide) (by decide) (by decide) (by decide) (by decide)

/-- C3: decrypting a ciphertext produced under `k1` with a different key
`k2` (and the original nonce) fails with `authenticationFailed`, the
failure kind enumeration treats as "not mine"; no plaintext is returned. -/
theorem decrypt_wrong_key_fails (p : JSStr) (k1 k2 iv : List Nat)
    (hp : IsScalarStr p) (hk1 : IsByteList k1) (h1 : k1.length = 32)
    (h2 : k2.length = 32) (hne : k1 ≠ k2) (hiv : IsByteList iv) :
    decryptText (encryptText p k1 iv).encryptedData k2 (encryptText p k1 iv).iv =
      Except.error DecryptError.authenticationFailed := by
  have hct : IsByteList (aesGcmEncrypt k1 iv (utf8Encode p)) :=
    aesGcmEncrypt_bytes k1 iv _ hk1 hiv (utf8Encode_bytes p hp)
  unfold encryptText decryptText
  simp only [atob_btoa _ hct, atob_btoa iv hiv,
    aesGcmDecrypt_wrong_key k1 k2 iv iv _ hk1 hiv (Or.inl hne)]

/-- C3 witness: two concrete distinct 32-byte keys. -/
theorem decrypt_wrong_key_fails_witness :
    decryptText (encryptText [104] (List.replicate 32 7) (List.replicate 12 3)).encryptedData
        (List.replicate 32 9)
        (encryptText [104] (List.replicate 32 7) (List.replicate 12 3)).iv =
      Except.error DecryptError.authenticationFailed :=
  decrypt_wrong_key_fails [104] (List.replicate 32 7) (List.replicate 32 9)
    (List.replicate 12 3) (by decide) (by decide) (by decide) (by decide) (by decide)
    (by decide)

theorem importKey_exportKey {k : List Nat} (hk : IsByteList k) (hlen : k.length = 32) :
    importKey (exportKey k) = some k := by
  unfold importKey exportKey
  rw [atob_btoa k hk]
  simp only [Option.some_bind']
  rw [if_pos (Or.inr (Or.inr hlen))]

/-- C4: `importKey (exportKey k)` reproduces the same 32-byte key
material, and the public index computed after the round trip equals the
public index of the original key. -/
theorem key_serialize_roundtrip (k : List Nat) (hk : IsByteList k) (hlen : k.length = 32) :
    importKey (exportKey k) = some k ∧
    ∀ k', importKey (exportKey k) = some k' → publicIndex k' = publicIndex k := by
  have himp : importKey (exportKey k) = some k := importKey_exportKey hk hlen
  refine ⟨himp, fun k' h => ?_⟩
  rw [himp] at h
  simp only [Option.some.injEq] at h
  subst h
  rfl

/-- C4 witness: a concrete generated 32-byte key. -/
theorem key_serialize_roundtrip_witness :
    importKey (exportKey (List.replicate 32 5)) = some (List.replicate 32 5) ∧
    ∀ k', importKey (exportKey (List.replicate 32 5)) = some k' →
      publicIndex k' = publicIndex (List.replicate 32 5) :=
  key_serialize_roundtrip (List.replicate 32 5) (by decide) (by decide)

/-- C5: the public index is a pure function of the serialized key string
(determinism is definitional in the embedding), always 8 characters, all
lower-case hex, obtained by truncating the SHA-256 digest of the
serialized key bytes to its first 4 bytes. -/
theorem publicIndex_format (ks : JSStr) :
    (generateKeyHash ks).length = 8 ∧
    (∀ c ∈ generateKeyHash ks, IsHexDigitCode c) ∧
    generateKeyHash ks =
      ((sha256 (utf8Encode ks)).take 4).flatMap (fun b => padStart2 (natToHex b)) := by
  refine ⟨generateKeyHash_length ks, ?_, rfl⟩
  intro c hc
  unfold generateKeyHash at hc
  rcases List.mem_flatMap.mp hc with ⟨b, hb, hcb⟩
  exact padStart2_natToHex_isHex (sha256_bytes _ b (List.mem_of_mem_take hb)) c hcb

/-! ## Metadata encryption (source: FileUploader module) and JSON -/

/-- Character codes of a Lean string literal. -/
def codes (s : String) : JSStr := s.data.map Char.toNat

/-- Fuel-driven decimal rendering; `fuel ≥ n` always suffices. -/
def natToDecAux : Nat → Nat → JSStr
  | 0, n => [48 + n]
  | fuel + 1, n => if n < 10 then [48 + n] else natToDecAux fuel (n / 10) ++ [48 + n % 10]

/-- `n.toString()` (decimal). -/
def natToDec (n : Nat) : JSStr := natToDecAux n n

/-- The in-memory metadata object `{fileName, fileSize, uploadDate}`.
JS `Date` values are modelled by their ISO-8601 string, so
`toISOString` and the `Date` constructor are identities. -/
structure FileMetadata where
  fileName : JSStr
  fileSize : Nat
  uploadDateIso : JSStr
deriving DecidableEq

/-- JSON string escaping of one character. -/
def jsonEscapeChar (c : Nat) : JSStr :=
  if c = 34 then [92, 34]
  else if c = 92 then [92, 92]
  else if c < 32 then [92, 117, 48, 48, hexDigit (c / 16), hexDigit (c % 16)]
  else [c]

def jsonEscape (s : JSStr) : JSStr := s.flatMap jsonEscapeChar

/-- Modelled from the spec (§4.2, "metadata is JSON-encoded to bytes
before encryption"): `JSON.stringify` of the metadata object; the
platform JSON serializer is not repository code. -/
def jsonStringifyMetadata (m : FileMetadata) : JSStr :=
  codes "\x7b\"fileName\":\"" ++ jsonEscape m.fileName ++
    codes "\",\"fileSize\":" ++ natToDec m.fileSize ++
    codes ",\"uploadDate\":\"" ++ jsonEscape m.uploadDateIso ++ codes "\"\x7d"

/-- Strip an expected literal prefix. -/
def stripLit : JSStr → JSStr → Option JSStr
  | [], s => some s
  | _ :: _, [] => none
  | p :: pt, c :: ct => if p = c then stripLit pt ct else none

/-- Value of a hex-digit character code. -/
def hexVal (c : Nat) : Option Nat :=
  if 48 ≤ c ∧ c ≤ 57 then some (c - 48)
  else if 97 ≤ c ∧ c ≤ 102 then some (c - 87)
  else if 65 ≤ c ∧ c ≤ 70 then some (c - 55)
  else none

/-- Parse a JSON string body up to the closing quote, handling the
escapes the serializer produces; returns content and remaining input. -/
def parseJsonStr : JSStr → Option (JSStr × JSStr)
  | [] => none
  | c :: rest =>
      if c = 34 then some ([], rest)
      else if c = 92 then
        match rest with
        | 34 :: rest2 => (parseJsonStr rest2).map fun p => (34 :: p.1, p.2)
        | 92 :: rest2 => (parseJsonStr rest2).map fun p => (92 :: p.1, p.2)
        | 117 :: h1 :: h2 :: h3 :: h4 :: rest2 =>
            match hexVal h1, hexVal h2, hexVal h3, hexVal h4 with
            | some v1, some v2, some v3, some v4 =>
                (parseJsonStr rest2).map fun p =>
                  ((v1 * 4096 + v2 * 256 + v3 * 16 + v4) :: p.1, p.2)
            | _, _, _, _ => none
        | _ => none
      else (parseJsonStr rest).map fun p => (c :: p.1, p.2)

/-- Parse a nonempty run of decimal digits. -/
def parseDec (s : JSStr) : Option (Nat × JSStr) :=
  let digits := s.takeWhile fun c => decide (48 ≤ c ∧ c ≤ 57)
  let rest := s.dropWhile fun c => decide (48 ≤ c ∧ c ≤ 57)
  if digits.isEmpty then none
  else some (digits.foldl (fun acc d => acc * 10 + (d - 48)) 0, rest)

/-- Modelled from the spec (§4.2, "JSON-decoded after decryption"):
`JSON.parse` restricted to the exact object shape the serializer above
emits; a parse failure models the thrown `SyntaxError`. -/
def jsonParseMetadata (s : JSStr) : Option FileMetadata := do
  let s1 ← stripLit (codes "\x7b\"fileName\":\"") s
  let (fn, s2) ← parseJsonStr s1
  let s3 ← stripLit (codes ",\"fileSize\":") s2
  let (sz, s4) ← parseDec s3
  let s5 ← stripLit (codes ",\"uploadDate\":\"") s4
  let (ud, s6) ← parseJsonStr s5
  if s6 = codes "\x7d" then pure ⟨fn, sz, ud⟩ else none

/-- `encryptMetadata(fileName, fileSize, uploadDate, key)` from the
FileUploader module: JSON-encode then `encryptText`. -/
def encryptMetadata (fileName : JSStr) (fileSize : Nat) (uploadDateIso : JSStr)
    (key : List Nat) (ivBytes : List Nat) : EncryptedTextResult :=
  encryptText (jsonStringifyMetadata ⟨fileName, fileSize, uploadDateIso⟩) key ivBytes

/-- `decryptMetadata(encryptedMetadata, key, iv)`: `decryptText` then
`JSON.parse`; `none` models any thrown error (authentication failure or
undecodable plaintext), which the enumeration loop catches. -/
def decryptMetadata (encryptedMetadata : JSStr) (key : List Nat) (iv : JSStr) :
    Option FileMetadata :=
  match decryptText encryptedMetadata key iv with
  | .error _ => none
  | .ok txt => jsonParseMetadata txt

/-! ## Server records and the enumeration (reconcile) loop -/

/-- One record as returned by the `list` action to the client. -/
structure ServerFileRecord where
  id : JSStr
  encryptedMetadata : JSStr
  metadataIv : JSStr
  fileIv : JSStr
  uploadedAt : JSStr
deriving DecidableEq

/-- The `FileInfo` view pushed by the `loadFiles` loop on success. -/
structure DecryptedFileInfo where
  id : JSStr
  fileName : JSStr
  fileSize : Nat
  uploadDate : JSStr
  uploadedAt : JSStr
deriving DecidableEq

/-- The per-record body of the `loadFiles` loop: attempt metadata
decryption and build the merged view; `none` is the caught failure. -/
def recordView (key : List Nat) (f : ServerFileRecord) : Option DecryptedFileInfo :=
  (decryptMetadata f.encryptedMetadata key f.metadataIv).map fun md =>
    { id := f.id, fileName := md.fileName, fileSize := md.fileSize,
      uploadDate := md.uploadDateIso, uploadedAt := f.uploadedAt }

/-- The `loadFiles` loop over the records returned by the `list`
action: push the decrypted view, or skip the record if decryption
failed (the hash-collision tolerance path). -/
def loadFilesLoop (key : List Nat) : List ServerFileRecord → List DecryptedFileInfo
  | [] => []
  | f :: rest =>
      match recordView key f with
      | some v => v :: loadFilesLoop key rest
      | none => loadFilesLoop key rest

/-! ## The store's `list` action (database side) -/

/-- A row of the `EncryptedFile` table. -/
structure DbEncryptedFile where
  id : JSStr
  encryptedMetadata : JSStr
  metadataIv : JSStr
  fileIv : JSStr
  encryptionKeyHash : JSStr
  createdAt : Nat
deriving DecidableEq

/-- Insert into a list kept sorted newest-first by `createdAt`. -/
def insertDesc (f : DbEncryptedFile) : List DbEncryptedFile → List DbEncryptedFile
  | [] => [f]
  | g :: t => if g.createdAt ≤ f.createdAt then f :: g :: t else g :: insertDesc f t

/-- Sort rows newest-first by `createdAt`. -/
def sortDesc : List DbEncryptedFile → List DbEncryptedFile
  | [] => []
  | f :: t => insertDesc f (sortDesc t)

/-- Row to wire format, `uploadedAt` rendered from the timestamp. -/
def toServerRecord (f : DbEncryptedFile) : ServerFileRecord :=
  { id := f.id, encryptedMetadata := f.encryptedMetadata, metadataIv := f.metadataIv,
    fileIv := f.fileIv, uploadedAt := natToDec f.createdAt }

/-- Modelled from the spec (§6, `listByIndex` ordered newest-first) and
the `list` action's query: `prisma.encryptedFile.findMany` filtered on
`encryptionKeyHash` with `orderBy createdAt desc` — the database engine
itself is not repository code. -/
def listAction (db : List DbEncryptedFile) (keyHash : JSStr) : List ServerFileRecord :=
  (sortDesc (db.filter fun f => f.encryptionKeyHash = keyHash)).map toServerRecord

theorem mem_insertDesc {f x : DbEncryptedFile} {l : List DbEncryptedFile} :
    x ∈ insertDesc f l ↔ x = f ∨ x ∈ l := by
  induction l with
  | nil => simp [insertDesc]
  | cons g t ih =>
      unfold insertDesc
      split
      · simp
      · simp only [List.mem_cons, ih]
        tauto

theorem pairwise_insertDesc {f : DbEncryptedFile} {l : List DbEncryptedFile}
    (h : l.Pairwise fun a b => b.createdAt ≤ a.createdAt) :
    (insertDesc f l).Pairwise fun a b => b.createdAt ≤ a.createdAt := by
  induction l with
  | nil => simp [insertDesc]
  | cons g t ih =>
      rw [List.pairwise_cons] at h
      obtain ⟨hg, ht⟩ := h
      unfold insertDesc
      split
      · rename_i hle
        rw [List.pairwise_cons]
        constructor
        · intro x hx
          simp only [List.mem_cons] at hx
          rcases hx with hx | hx
          · subst hx; exact hle
          · exact le_trans (hg x hx) hle
        · rw [List.pairwise_cons]
          exact ⟨hg, ht⟩
      · rename_i hgt
        rw [List.pairwise_cons]
        constructor
        · intro x hx
          rcases mem_insertDesc.mp hx with hx | hx
          · subst hx; omega
          · exact hg x hx
        · exact ih ht

theorem pairwise_sortDesc (l : List DbEncryptedFile) :
    (sortDesc l).Pairwise fun a b => b.createdAt ≤ a.createdAt := by
  induction l with
  | nil => simp [sortDesc]
  | cons f t ih => exact pairwise_insertDesc ih

theorem loadFilesLoop_filterMap (key : List Nat) (records : List ServerFileRecord) :
    loadFilesLoop key records = records.filterMap (recordView key) := by
  induction records with
  | nil => rfl
  | cons f rest ih =>
      unfold loadFilesLoop
      cases hv : recordView key f with
      | some v => simp only [List.filterMap_cons, hv, ih]
      | none => simp only [List.filterMap_cons, hv, ih]

theorem loadFilesLoop_skip (key : List Nat) (pre post : List ServerFileRecord)
    (bad : ServerFileRecord) (hbad : recordView key bad = none) :
    loadFilesLoop key (pre ++ bad :: post) =
      loadFilesLoop key pre ++ loadFilesLoop key post := by
  rw [loadFilesLoop_filterMap, loadFilesLoop_filterMap, loadFilesLoop_filterMap,
    List.filterMap_append]
  simp only [List.filterMap_cons, hbad]

/-- C2: enumeration attempts metadata decryption per record; a failing
record is silently excluded and never aborts the others; the empty list
reconciles to the empty list; surviving views appear in the order of the
input records (`filterMap` of the per-record view), and the store
returns records newest-first by creation time. -/
theorem reconcile_collision_tolerant (key : List Nat)
    (records pre post : List ServerFileRecord) (bad : ServerFileRecord)
    (db : List DbEncryptedFile) (kh : JSStr)
    (hbad : recordView key bad = none) :
    loadFilesLoop key [] = [] ∧
    loadFilesLoop key (pre ++ bad :: post) =
      loadFilesLoop key pre ++ loadFilesLoop key post ∧
    loadFilesLoop key records = records.filterMap (recordView key) ∧
    loadFilesLoop key (listAction db kh) =
      (listAction db kh).filterMap (recordView key) ∧
    (sortDesc (db.filter fun f => f.encryptionKeyHash = kh)).Pairwise
      (fun a b => b.createdAt ≤ a.createdAt) := by
  exact ⟨rfl, loadFilesLoop_skip key pre post bad hbad,
    loadFilesLoop_filterMap key records, loadFilesLoop_filterMap key _,
    pairwise_sortDesc _⟩

/-- C2 witness: concrete records, one of which fails decryption. -/
theorem reconcile_collision_tolerant_witness :
    recordView [1] ⟨[97], [], [], [], [48]⟩ = none ∧
    loadFilesLoop [1] [] = [] := by
  constructor
  · decide
  · exact (reconcile_collision_tolerant [1] [] [] []
      ⟨[97], [], [], [], [48]⟩ [] [48] (by decide)).1

/-! ## URL fragment parsing (`encodeURIComponent` / `URLSearchParams`) -/

/-- Characters `encodeURIComponent` leaves unescaped:
`A`-`Z` `a`-`z` `0`-`9` `-` `_` `.` `!` `~` `*` `(` `)` and the
apostrophe (code 39). -/
def IsUnreserved (c : Nat) : Prop :=
  (48 ≤ c ∧ c ≤ 57) ∨ (65 ≤ c ∧ c ≤ 90) ∨ (97 ≤ c ∧ c ≤ 122) ∨
    c = 45 ∨ c = 95 ∨ c = 46 ∨ c = 33 ∨ c = 126 ∨ c = 42 ∨ c = 39 ∨ c = 40 ∨ c = 41

instance (c : Nat) : Decidable (IsUnreserved c) := by unfold IsUnreserved; infer_instance

/-- Upper-case hex digit, as `encodeURIComponent` emits. -/
def hexDigitUpper (n : Nat) : Nat := if n < 10 then 48 + n else 55 + n

/-- `%XX` escape of one byte. -/
def pctByte (b : Nat) : JSStr := [37, hexDigitUpper (b / 16), hexDigitUpper (b % 16)]

/-- `encodeURIComponent(s)`: unreserved characters pass through, all
others are percent-escaped byte-wise over their UTF-8 encoding. -/
def encodeURIComponent (s : JSStr) : JSStr :=
  s.flatMap fun c =>
    if IsUnreserved c then [c] else (utf8EncodeChar c).flatMap pctByte

/-- Fuel-driven body of the form-urlencoded token decoder. -/
def pctDecodeFuel : Nat → JSStr → List Nat
  | _, [] => []
  | 0, _ :: _ => []
  | fuel + 1, c :: rest =>
      if c = 43 then 32 :: pctDecodeFuel fuel rest
      else if c = 37 then
        match rest with
        | h1 :: h2 :: rest2 =>
            match hexVal h1, hexVal h2 with
            | some v1, some v2 => (v1 * 16 + v2) :: pctDecodeFuel fuel rest2
            | _, _ => 37 :: pctDecodeFuel fuel rest
        | _ => 37 :: pctDecodeFuel fuel rest
      else utf8EncodeChar c ++ pctDecodeFuel fuel rest

/-- `application/x-www-form-urlencoded` token decoding to bytes: `+`
becomes a space, `%XX` a byte, other characters contribute their UTF-8
bytes; a malformed escape leaves the `%` literal. -/
def pctDecodeBytes (s : JSStr) : List Nat := pctDecodeFuel s.length s

theorem pctDecodeFuel_nil (f : Nat) : pctDecodeFuel f [] = [] := by
  cases f <;> rfl

theorem pctDecodeFuel_succ_cons (fuel c : Nat) (rest : JSStr) :
    pctDecodeFuel (fuel + 1) (c :: rest) =
      if c = 43 then 32 :: pctDecodeFuel fuel rest
      else if c = 37 then
        match rest with
        | h1 :: h2 :: rest2 =>
            match hexVal h1, hexVal h2 with
            | some v1, some v2 => (v1 * 16 + v2) :: pctDecodeFuel fuel rest2
            | _, _ => 37 :: pctDecodeFuel fuel rest
        | _ => 37 :: pctDecodeFuel fuel rest
      else utf8EncodeChar c ++ pctDecodeFuel fuel rest := rfl

theorem pctDecodeFuel_irrel {f1 f2 : Nat} {l : JSStr}
    (h1 : l.length ≤ f1) (h2 : l.length ≤ f2) :
    pctDecodeFuel f1 l = pctDecodeFuel f2 l := by
  induction f1 generalizing f2 l with
  | zero =>
      cases l with
      | nil => rw [pctDecodeFuel_nil, pctDecodeFuel_nil]
      | cons c rest => simp at h1
  | succ g1 ih =>
      cases l with
      | nil => rw [pctDecodeFuel_nil, pctDecodeFuel_nil]
      | cons c rest =>
          cases f2 with
          | zero => simp at h2
          | succ g2 =>
              simp only [List.length_cons] at h1 h2
              rw [pctDecodeFuel_succ_cons, pctDecodeFuel_succ_cons]
              by_cases h43 : c = 43
              · rw [if_pos h43, if_pos h43, @ih g2 rest (by omega) (by omega)]
              · rw [if_neg h43, if_neg h43]
                by_cases h37 : c = 37
                · rw [if_pos h37, if_pos h37]
                  match rest, h1, h2 with
                  | [], h1, h2 =>
                      show 37 :: pctDecodeFuel g1 [] = 37 :: pctDecodeFuel g2 []
                      rw [pctDecodeFuel_nil, pctDecodeFuel_nil]
                  | [d1], h1, h2 =>
                      show 37 :: pctDecodeFuel g1 [d1] = 37 :: pctDecodeFuel g2 [d1]
                      rw [@ih g2 [d1] (by simp only [List.length_cons] at h1 ⊢; omega)
                        (by simp only [List.length_cons] at h2 ⊢; omega)]
                  | d1 :: d2 :: rest2, h1, h2 =>
                      simp only [List.length_cons] at h1 h2
                      cases hv1 : hexVal d1 with
                      | none =>
                          simp only [hv1]
                          rw [@ih g2 (d1 :: d2 :: rest2)
                            (by simp only [List.length_cons]; omega)
                            (by simp only [List.length_cons]; omega)]
                      | some v1 =>
                          cases hv2 : hexVal d2 with
                          | none =>
                              simp only [hv1, hv2]
                              rw [@ih g2 (d1 :: d2 :: rest2)
                                (by simp only [List.length_cons]; omega)
                                (by simp only [List.length_cons]; omega)]
                          | some v2 =>
                              simp only [hv1, hv2]
                              rw [@ih g2 rest2 (by omega) (by omega)]
                · rw [if_neg h37, if_neg h37, @ih g2 rest (by omega) (by omega)]

/-- Decode one form-urlencoded token to a JS string. -/
def decodeParamToken (s : JSStr) : JSStr := textDecode (pctDecodeBytes s)

/-- Split on a separator character code. -/
def splitOnCode (sep : Nat) : JSStr → List JSStr
  | [] => [[]]
  | c :: rest =>
      if c = sep then [] :: splitOnCode sep rest
      else
        match splitOnCode sep rest with
        | h :: t => (c :: h) :: t
        | [] => [[c]]

/-- Split a `name=value` segment at the first `=`; a segment without
`=` is a name with empty value. -/
def splitFirstEq : JSStr → JSStr × JSStr
  | [] => ([], [])
  | c :: rest =>
      if c = 61 then ([], rest)
      else
        let p := splitFirstEq rest
        (c :: p.1, p.2)

/-- `new URLSearchParams(query).get(name)`: first pair whose decoded
name matches, with its decoded value; empty segments are skipped. -/
def urlParamsGet (query : JSStr) (name : JSStr) : Option JSStr :=
  ((splitOnCode 38 query).filterMap fun part =>
      if part = [] then none else some (splitFirstEq part)).findSome? fun p =>
    if decodeParamToken p.1 = name then some (decodeParamToken p.2) else none

theorem hexVal_hexDigitUpper {n : Nat} (h : n < 16) :
    hexVal (hexDigitUpper n) = some n := by
  revert h; revert n; decide

theorem pctDecodeBytes_pctByte {b : Nat} (hb : b < 256) (rest : JSStr) :
    pctDecodeBytes (pctByte b ++ rest) = b :: pctDecodeBytes rest := by
  show pctDecodeFuel (rest.length + 1 + 1 + 1)
      (37 :: hexDigitUpper (b / 16) :: hexDigitUpper (b % 16) :: rest) = _
  rw [pctDecodeFuel_succ_cons,
    if_neg (show ¬((37 : Nat) = 43) by decide), if_pos (show (37 : Nat) = 37 from rfl)]
  simp only [hexVal_hexDigitUpper (show b / 16 < 16 by omega),
    hexVal_hexDigitUpper (show b % 16 < 16 by omega)]
  have hb' : b / 16 * 16 + b % 16 = b := by omega
  rw [hb', pctDecodeFuel_irrel (show rest.length ≤ rest.length + 1 + 1 from by omega) le_rfl]
  rfl

theorem pctDecodeBytes_escaped (bs : List Nat) (hbs : IsByteList bs) (rest : JSStr) :
    pctDecodeBytes (bs.flatMap pctByte ++ rest) = bs ++ pctDecodeBytes rest := by
  induction bs with
  | nil => simp
  | cons b t ih =>
      have hb : b < 256 := hbs b (by simp)
      have ht : IsByteList t := fun x hx => hbs x (by simp [hx])
      rw [List.flatMap_cons, List.append_assoc, pctDecodeBytes_pctByte hb, ih ht]
      rfl

theorem pctDecodeBytes_unreserved {c : Nat} (hc : IsUnreserved c) (rest : JSStr) :
    pctDecodeBytes (c :: rest) = utf8EncodeChar c ++ pctDecodeBytes rest := by
  have h43 : ¬(c = 43) := by
    unfold IsUnreserved at hc
    rcases hc with h | h | h | h | h | h | h | h | h | h | h | h <;> omega
  have h37 : ¬(c = 37) := by
    unfold IsUnreserved at hc
    rcases hc with h | h | h | h | h | h | h | h | h | h | h | h <;> omega
  show pctDecodeFuel (rest.length + 1) (c :: rest) = _
  rw [pctDecodeFuel_succ_cons, if_neg h43, if_neg h37]
  rfl

theorem pctDecodeBytes_encodeURIComponent (s : JSStr) (hs : IsScalarStr s) :
    pctDecodeBytes (encodeURIComponent s) = utf8Encode s := by
  induction s with
  | nil => rfl
  | cons c t ih =>
      have hc : IsScalar c := hs c (by simp)
      have ht : IsScalarStr t := fun x hx => hs x (by simp [hx])
      unfold encodeURIComponent at ih ⊢
      rw [List.flatMap_cons]
      by_cases hu : IsUnreserved c
      · rw [if_pos hu]
        show pctDecodeBytes (c :: t.flatMap _) = _
        rw [pctDecodeBytes_unreserved hu, ih ht]
        rfl
      · rw [if_neg hu, pctDecodeBytes_escaped _ (utf8EncodeChar_bytes c hc), ih ht]
        rfl

theorem decodeParamToken_encodeURIComponent (s : JSStr) (hs : IsScalarStr s) :
    decodeParamToken (encodeURIComponent s) = s := by
  unfold decodeParamToken
  rw [pctDecodeBytes_encodeURIComponent s hs, textDecode_utf8Encode s hs]

theorem hexDigitUpper_ne_38 (n : Nat) : hexDigitUpper n ≠ 38 := by
  unfold hexDigitUpper
  split <;> omega

theorem encodeURIComponent_no_amp (s : JSStr) : (38 : Nat) ∉ encodeURIComponent s := by
  intro hmem
  unfold encodeURIComponent at hmem
  rcases List.mem_flatMap.mp hmem with ⟨x, -, hcx⟩
  split at hcx
  · rename_i hu
    simp only [List.mem_singleton] at hcx
    subst hcx
    unfold IsUnreserved at hu
    rcases hu with h | h | h | h | h | h | h | h | h | h | h | h <;> omega
  · rcases List.mem_flatMap.mp hcx with ⟨b, -, hcb⟩
    unfold pctByte at hcb
    simp only [List.mem_cons, List.not_mem_nil, or_false] at hcb
    rcases hcb with h | h | h
    · omega
    · exact hexDigitUpper_ne_38 _ h.symm
    · exact hexDigitUpper_ne_38 _ h.symm

theorem splitOnCode_no_sep {sep : Nat} {l : JSStr} (h : sep ∉ l) :
    splitOnCode sep l = [l] := by
  induction l with
  | nil => rfl
  | cons c t ih =>
      have hc : ¬(c = sep) := fun he => h (he ▸ List.mem_cons_self c t)
      have ht : sep ∉ t := fun he => h (List.mem_cons_of_mem c he)
      rw [splitOnCode.eq_def]
      simp only [if_neg hc, ih ht]

theorem splitFirstEq_append {pre post : JSStr} (h : (61 : Nat) ∉ pre) :
    splitFirstEq (pre ++ 61 :: post) = (pre, post) := by
  induction pre with
  | nil =>
      show splitFirstEq (61 :: post) = _
      rw [splitFirstEq.eq_def]
      simp
  | cons c t ih =>
      have hc : ¬(c = 61) := fun he => h (he ▸ List.mem_cons_self c t)
      have ht : (61 : Nat) ∉ t := fun he => h (List.mem_cons_of_mem c he)
      show splitFirstEq (c :: (t ++ 61 :: post)) = _
      rw [splitFirstEq.eq_def]
      simp only [if_neg hc, ih ht]

/-- Parsing the fragment query `key=<encodeURIComponent ks>` recovers
`ks` under the single field name `key`. -/
theorem urlParamsGet_keyFragment (ks : JSStr) (hks : IsScalarStr ks) :
    urlParamsGet (codes "key=" ++ encodeURIComponent ks) (codes "key") = some ks := by
  unfold urlParamsGet
  have hno38 : (38 : Nat) ∉ codes "key=" ++ encodeURIComponent ks := by
    intro hmem
    rcases List.mem_append.mp hmem with h | h
    · revert h; decide
    · exact encodeURIComponent_no_amp ks h
  rw [splitOnCode_no_sep hno38]
  have hsplit : splitFirstEq (codes "key=" ++ encodeURIComponent ks) =
      (codes "key", encodeURIComponent ks) := by
    show splitFirstEq ((codes "key") ++ 61 :: encodeURIComponent ks) = _
    exact splitFirstEq_append (by decide)
  have hne : ¬(codes "key=" ++ encodeURIComponent ks = []) := by
    intro h
    have := congrArg List.length h
    simp [codes] at this
  simp only [List.filterMap_cons, List.filterMap_nil, if_neg hne, hsplit]
  rw [List.findSome?_cons]
  have hname : decodeParamToken (codes "key") = codes "key" := by decide
  rw [if_pos hname, decodeParamToken_encodeURIComponent ks hks]

/-! ## KeyManager (key-manager module) -/

/-- The published nanostores relevant to key state
(`encryptionKeyStore`, `keyHashStore`, `keyLoadedFromExternal`). -/
structure StoresState where
  encryptionKey : Option (List Nat)
  keyHash : Option JSStr
  keyLoadedFromExternal : Bool
deriving DecidableEq

/-- The ambient browser context the manager reads and writes. -/
structure BrowserState where
  baseUrl : JSStr
  locationHash : JSStr
  sessionStorageAvailable : Bool
  sessionSlot : Option JSStr
deriving DecidableEq

/-- The `KeyManager` instance fields. -/
structure KMState where
  key : Option (List Nat)
  keyString : Option JSStr
  keyHash : Option JSStr
deriving DecidableEq

/-- The manager together with the state it observes and mutates. -/
structure World where
  km : KMState
  browser : BrowserState
  stores : StoresState
deriving DecidableEq

/-- `KeyManager.setKey(keyString)`: import the key — a thrown
`DataError`/`InvalidCharacterError` is `none` and leaves every field
unchanged, since the first assignment happens after `importKey`
resolves — then set the fields, save to session storage (skipped when
the string is empty or storage is unavailable; a `setItem` failure is
caught and only warns), and publish to the stores. -/
def setKey (w : World) (ks : JSStr) : Option World :=
  match importKey ks with
  | none => none
  | some k =>
      some { km := ⟨some k, some ks, some (generateKeyHash ks)⟩,
             browser :=
               if ks ≠ [] ∧ w.browser.sessionStorageAvailable then
                 { w.browser with sessionSlot := some ks }
               else w.browser,
             stores := ⟨some k, some (generateKeyHash ks),
               w.stores.keyLoadedFromExternal⟩ }

/-- `loadFromSessionStorage()`: read the slot; an empty or absent value
is skipped; a `setKey` failure is caught and reported as `false`. -/
def loadFromSessionStorage (w : World) : World × Bool :=
  if w.browser.sessionStorageAvailable then
    match w.browser.sessionSlot with
    | some stored =>
        if stored ≠ [] then
          match setKey w stored with
          | some w' =>
              ({ w' with stores := { w'.stores with keyLoadedFromExternal := true } }, true)
          | none => (w, false)
        else (w, false)
    | none => (w, false)
  else (w, false)

/-- `loadFromUrl()`: when the fragment starts with `#` and carries a
non-empty `key` field, adopt it, mark it externally loaded, and strip
the fragment from the URL via `history.replaceState`; a `setKey` failure
is caught (logged) and nothing changes. -/
def loadFromUrlWithQuery (w : World) (query : JSStr) : World × Bool :=
  match urlParamsGet query (codes "key") with
  | some keyFromUrl =>
      if keyFromUrl ≠ [] then
        match setKey w keyFromUrl with
        | some w' =>
            ({ w' with browser := { w'.browser with locationHash := [] },
                       stores := { w'.stores with keyLoadedFromExternal := true } }, true)
        | none => (w, false)
      else (w, false)
  | none => (w, false)

/-- `loadFromUrl()` proper: nothing happens unless the fragment starts
with `#`. -/
def loadFromUrl (w : World) : World × Bool :=
  match w.browser.locationHash with
  | [] => (w, false)
  | c :: hashRest => if c = 35 then loadFromUrlWithQuery w hashRest else (w, false)

/-- `generateNewKey()`: export a fresh AES key (the fresh raw bytes
stand for `generateEncryptionKey()`) and adopt it via `setKey`. -/
def generateNewKey (w : World) (fresh : List Nat) : Option World :=
  setKey w (exportKey fresh)

/-- The three outcomes of `initialize()`. -/
inductive InitResult
  | generated
  | fromUrl
  | fromSession
deriving DecidableEq

/-- `initialize()`: try the URL hash, then session storage, else
generate a new key. -/
def initKeyManager (w : World) (fresh : List Nat) : Option (World × InitResult) :=
  let u := loadFromUrl w
  if u.2 then some (u.1, .fromUrl)
  else
    let sst := loadFromSessionStorage u.1
    if sst.2 then some (sst.1, .fromSession)
    else (generateNewKey sst.1 fresh).map fun w' => (w', .generated)

/-- `getShareUrl()`: throws (`.error`) when no key string is held;
otherwise the current URL with fragment
`#key=<encodeURIComponent(keyString)>`. -/
def getShareUrl (w : World) : Except Unit JSStr :=
  match w.km.keyString with
  | none => .error ()
  | some ks =>
      if ks = [] then .error ()
      else .ok (w.browser.baseUrl ++ 35 :: (codes "key=" ++ encodeURIComponent ks))

/-- Mutual consistency of the manager's fields and the published
stores whenever a key is held. -/
def KMConsistent (w : World) : Prop :=
  match w.km.key with
  | none => w.km.keyString = none
  | some k => ∃ ks, w.km.keyString = some ks ∧ ks ≠ [] ∧ importKey ks = some k ∧
      w.km.keyHash = some (generateKeyHash ks) ∧
      w.stores.encryptionKey = some k ∧
      w.stores.keyHash = some (generateKeyHash ks)

theorem importKey_ne_nil {ks : JSStr} {k : List Nat} (h : importKey ks = some k) :
    ks ≠ [] := by
  intro he
  subst he
  rw [show importKey [] = none from rfl] at h
  exact absurd h (by simp)

theorem setKey_fields {w : World} {ks : JSStr} {w' : World}
    (h : setKey w ks = some w') :
    ∃ k, importKey ks = some k ∧
      w'.km = { key := some k, keyString := some ks,
                keyHash := some (generateKeyHash ks) } ∧
      w'.stores.encryptionKey = some k ∧
      w'.stores.keyHash = some (generateKeyHash ks) ∧
      w'.stores.keyLoadedFromExternal = w.stores.keyLoadedFromExternal ∧
      w'.browser.sessionStorageAvailable = w.browser.sessionStorageAvailable ∧
      w'.browser.locationHash = w.browser.locationHash ∧
      w'.browser.baseUrl = w.browser.baseUrl ∧
      (w.browser.sessionStorageAvailable = true → w'.browser.sessionSlot = some ks) := by
  unfold setKey at h
  cases hk : importKey ks with
  | none => rw [hk] at h; exact absurd h (by simp)
  | some k =>
      rw [hk] at h
      simp only [Option.some.injEq] at h
      subst h
      refine ⟨k, rfl, rfl, rfl, rfl, rfl, ?_, ?_, ?_, ?_⟩
      · split <;> rfl
      · split <;> rfl
      · split <;> rfl
      · intro hav
        split
        · rfl
        · rename_i hcond
          exact absurd (And.intro (importKey_ne_nil hk) hav) hcond

theorem setKey_consistent {w : World} {ks : JSStr} {w' : World}
    (h : setKey w ks = some w') : KMConsistent w' := by
  obtain ⟨k, hk, hkm, hse, hsh, -⟩ := setKey_fields h
  unfold KMConsistent
  rw [hkm]
  exact ⟨ks, rfl, importKey_ne_nil hk, hk, rfl, hse, hsh⟩

/-- Marking the key externally loaded and stripping the fragment does
not disturb field consistency. -/
theorem kmConsistent_mark {w : World} (h : KMConsistent w) :
    KMConsistent { w with browser := { w.browser with locationHash := [] },
                          stores := { w.stores with keyLoadedFromExternal := true } } := by
  unfold KMConsistent at h ⊢
  cases hk : w.km.key with
  | none => rw [hk] at h; exact h
  | some k =>
      rw [hk] at h
      obtain ⟨ks, h1, h2, h3, h4, h5, h6⟩ := h
      exact ⟨ks, h1, h2, h3, h4, h5, h6⟩

theorem kmConsistent_markSession {w : World} (h : KMConsistent w) :
    KMConsistent { w with stores := { w.stores with keyLoadedFromExternal := true } } := by
  unfold KMConsistent at h ⊢
  cases hk : w.km.key with
  | none => rw [hk] at h; exact h
  | some k =>
      rw [hk] at h
      obtain ⟨ks, h1, h2, h3, h4, h5, h6⟩ := h
      exact ⟨ks, h1, h2, h3, h4, h5, h6⟩

theorem loadFromUrlWithQuery_none {w : World} {q : JSStr}
    (hq : urlParamsGet q (codes "key") = none) :
    loadFromUrlWithQuery w q = (w, false) := by
  unfold loadFromUrlWithQuery
  simp only [hq]

theorem loadFromUrlWithQuery_empty {w : World} {q : JSStr}
    (hq : urlParamsGet q (codes "key") = some []) :
    loadFromUrlWithQuery w q = (w, false) := by
  unfold loadFromUrlWithQuery
  simp only [hq, ne_eq, not_true_eq_false, if_neg, ite_false]

theorem loadFromUrlWithQuery_badKey {w : World} {q kfu : JSStr}
    (hq : urlParamsGet q (codes "key") = some kfu) (hne : kfu ≠ [])
    (hs : setKey w kfu = none) :
    loadFromUrlWithQuery w q = (w, false) := by
  unfold loadFromUrlWithQuery
  simp only [hq, if_pos hne, hs]

theorem loadFromUrlWithQuery_adopt {w : World} {q kfu : JSStr} {w' : World}
    (hq : urlParamsGet q (codes "key") = some kfu) (hne : kfu ≠ [])
    (hs : setKey w kfu = some w') :
    loadFromUrlWithQuery w q =
      ({ w' with browser := { w'.browser with locationHash := [] },
                 stores := { w'.stores with keyLoadedFromExternal := true } }, true) := by
  unfold loadFromUrlWithQuery
  simp only [hq, if_pos hne, hs]

theorem loadFromUrl_no_fragment {w : World} (hh : w.browser.locationHash = []) :
    loadFromUrl w = (w, false) := by
  unfold loadFromUrl
  rw [hh]

theorem loadFromUrl_fragment {w : World} {c : Nat} {t : JSStr}
    (hh : w.browser.locationHash = c :: t) :
    loadFromUrl w = if c = 35 then loadFromUrlWithQuery w t else (w, false) := by
  unfold loadFromUrl
  rw [hh]

theorem loadFromUrlWithQuery_fst_of_false {w : World} {q : JSStr}
    (h : (loadFromUrlWithQuery w q).2 = false) : (loadFromUrlWithQuery w q).1 = w := by
  cases hq : urlParamsGet q (codes "key") with
  | none => rw [loadFromUrlWithQuery_none hq]
  | some kfu =>
      by_cases hne : kfu ≠ []
      · cases hs : setKey w kfu with
        | none => rw [loadFromUrlWithQuery_badKey hq hne hs]
        | some w' =>
            rw [loadFromUrlWithQuery_adopt hq hne hs] at h
            exact absurd h (by simp)
      · rw [not_ne_iff] at hne
        subst hne
        rw [loadFromUrlWithQuery_empty hq]

theorem loadFromUrl_fst_of_false {w : World} (h : (loadFromUrl w).2 = false) :
    (loadFromUrl w).1 = w := by
  cases hh : w.browser.locationHash with
  | nil => rw [loadFromUrl_no_fragment hh]
  | cons c t =>
      rw [loadFromUrl_fragment hh] at h ⊢
      by_cases hc : c = 35
      · rw [if_pos hc] at h ⊢
        exact loadFromUrlWithQuery_fst_of_false h
      · rw [if_neg hc]

theorem loadFromUrl_true {w : World} (h : (loadFromUrl w).2 = true) :
    ∃ t kfu w', w.browser.locationHash = 35 :: t ∧
      urlParamsGet t (codes "key") = some kfu ∧ kfu ≠ [] ∧
      setKey w kfu = some w' ∧
      (loadFromUrl w).1 =
        { w' with browser := { w'.browser with locationHash := [] },
                  stores := { w'.stores with keyLoadedFromExternal := true } } := by
  cases hh : w.browser.locationHash with
  | nil => rw [loadFromUrl_no_fragment hh] at h; exact absurd h (by simp)
  | cons c t =>
      rw [loadFromUrl_fragment hh] at h
      by_cases hc : c = 35
      · subst hc
        rw [if_pos rfl] at h
        cases hq : urlParamsGet t (codes "key") with
        | none =>
            rw [loadFromUrlWithQuery_none hq] at h
            exact absurd h (by simp)
        | some kfu =>
            by_cases hne : kfu ≠ []
            · cases hs : setKey w kfu with
              | none =>
                  rw [loadFromUrlWithQuery_badKey hq hne hs] at h
                  exact absurd h (by simp)
              | some w' =>
                  refine ⟨t, kfu, w', rfl, hq, hne, hs, ?_⟩
                  rw [loadFromUrl_fragment hh, if_pos rfl,
                    loadFromUrlWithQuery_adopt hq hne hs]
            · rw [not_ne_iff] at hne
              subst hne
              rw [loadFromUrlWithQuery_empty hq] at h
              exact absurd h (by simp)
      · rw [if_neg hc] at h
        exact absurd h (by simp)

theorem loadFromSessionStorage_unavailable {w : World}
    (hav : w.browser.sessionStorageAvailable = false) :
    loadFromSessionStorage w = (w, false) := by
  unfold loadFromSessionStorage
  simp only [hav, Bool.false_eq_true, if_false, ite_false]

theorem loadFromSessionStorage_noSlot {w : World}
    (hsl : w.browser.sessionSlot = none) :
    loadFromSessionStorage w = (w, false) := by
  unfold loadFromSessionStorage
  split
  · simp only [hsl]
  · rfl

theorem loadFromSessionStorage_emptySlot {w : World}
    (hsl : w.browser.sessionSlot = some []) :
    loadFromSessionStorage w = (w, false) := by
  unfold loadFromSessionStorage
  split
  · simp only [hsl, ne_eq, not_true_eq_false, if_neg, ite_false]
  · rfl

theorem loadFromSessionStorage_badKey {w : World} {stored : JSStr}
    (hsl : w.browser.sessionSlot = some stored) (hne : stored ≠ [])
    (hs : setKey w stored = none) :
    loadFromSessionStorage w = (w, false) := by
  unfold loadFromSessionStorage
  split
  · simp only [hsl, if_pos hne, hs]
  · rfl

theorem loadFromSessionStorage_adopt {w : World} {stored : JSStr} {w' : World}
    (hav : w.browser.sessionStorageAvailable = true)
    (hsl : w.browser.sessionSlot = some stored) (hne : stored ≠ [])
    (hs : setKey w stored = some w') :
    loadFromSessionStorage w =
      ({ w' with stores := { w'.stores with keyLoadedFromExternal := true } }, true) := by
  unfold loadFromSessionStorage
  rw [if_pos hav]
  simp only [hsl, if_pos hne, hs]

theorem loadFromSessionStorage_fst_of_false {w : World}
    (h : (loadFromSessionStorage w).2 = false) : (loadFromSessionStorage w).1 = w := by
  by_cases hav : w.browser.sessionStorageAvailable = true
  · cases hsl : w.browser.sessionSlot with
    | none => rw [loadFromSessionStorage_noSlot hsl]
    | some stored =>
        by_cases hne : stored ≠ []
        · cases hs : setKey w stored with
          | none => rw [loadFromSessionStorage_badKey hsl hne hs]
          | some w' =>
              rw [loadFromSessionStorage_adopt hav hsl hne hs] at h
              exact absurd h (by simp)
        · rw [not_ne_iff] at hne
          subst hne
          rw [loadFromSessionStorage_emptySlot hsl]
  · rw [loadFromSessionStorage_unavailable (by simpa using hav)]

theorem loadFromSessionStorage_true {w : World}
    (h : (loadFromSessionStorage w).2 = true) :
    ∃ stored w', w.browser.sessionStorageAvailable = true ∧
      w.browser.sessionSlot = some stored ∧ stored ≠ [] ∧
      setKey w stored = some w' ∧
      (loadFromSessionStorage w).1 =
        { w' with stores := { w'.stores with keyLoadedFromExternal := true } } := by
  by_cases hav : w.browser.sessionStorageAvailable = true
  · cases hsl : w.browser.sessionSlot with
    | none =>
        rw [loadFromSessionStorage_noSlot hsl] at h
        exact absurd h (by simp)
    | some stored =>
        by_cases hne : stored ≠ []
        · cases hs : setKey w stored with
          | none =>
              rw [loadFromSessionStorage_badKey hsl hne hs] at h
              exact absurd h (by simp)
          | some w' =>
              refine ⟨stored, w', hav, rfl, hne, hs, ?_⟩
              rw [loadFromSessionStorage_adopt hav hsl hne hs]
        · rw [not_ne_iff] at hne
          subst hne
          rw [loadFromSessionStorage_emptySlot hsl] at h
          exact absurd h (by simp)
  · rw [loadFromSessionStorage_unavailable (by simpa using hav)] at h
    exact absurd h (by simp)

theorem exportKey_ne_nil {k : List Nat} (hlen : k.length = 32) : exportKey k ≠ [] := by
  intro h
  unfold exportKey at h
  rw [btoa_eq_nil_iff] at h
  subst h
  simp at hlen

theorem initKeyManager_eq (w : World) (fresh : List Nat) :
    initKeyManager w fresh =
      if (loadFromUrl w).2 then some ((loadFromUrl w).1, InitResult.fromUrl)
      else if (loadFromSessionStorage (loadFromUrl w).1).2 then
        some ((loadFromSessionStorage (loadFromUrl w).1).1, InitResult.fromSession)
      else
        (generateNewKey (loadFromSessionStorage (loadFromUrl w).1).1 fresh).map
          fun w' => (w', InitResult.generated) := rfl

/-- C9: every key-state mutation — `setKey`, `generateNewKey`, the URL
and session acquisition paths, and `initialize` — leaves the manager
fields mutually consistent: a held key matches `importKey keyString`,
the hash is `generateKeyHash keyString`, and the published stores carry
the same key and hash. -/
theorem keyManager_consistency :
    (∀ w ks w', setKey w ks = some w' → KMConsistent w') ∧
    (∀ w fresh w', generateNewKey w fresh = some w' → KMConsistent w') ∧
    (∀ w, KMConsistent w → KMConsistent (loadFromUrl w).1) ∧
    (∀ w, KMConsistent w → KMConsistent (loadFromSessionStorage w).1) ∧
    (∀ w fresh w' r, initKeyManager w fresh = some (w', r) → KMConsistent w') := by
  refine ⟨fun w ks w' h => setKey_consistent h,
    fun w fresh w' h => setKey_consistent h, ?_, ?_, ?_⟩
  · intro w hw
    rcases Bool.eq_false_or_eq_true (loadFromUrl w).2 with hb | hb
    · obtain ⟨t, kfu, w', -, -, -, hs, heq⟩ := loadFromUrl_true hb
      rw [heq]
      exact kmConsistent_mark (setKey_consistent hs)
    · rw [loadFromUrl_fst_of_false hb]; exact hw
  · intro w hw
    rcases Bool.eq_false_or_eq_true (loadFromSessionStorage w).2 with hb | hb
    · obtain ⟨stored, w', -, -, -, hs, heq⟩ := loadFromSessionStorage_true hb
      rw [heq]
      exact kmConsistent_markSession (setKey_consistent hs)
    · rw [loadFromSessionStorage_fst_of_false hb]; exact hw
  · intro w fresh w' r h
    rw [initKeyManager_eq] at h
    rcases Bool.eq_false_or_eq_true (loadFromUrl w).2 with hb1 | hb1
    · rw [hb1, if_pos rfl] at h
      simp only [Option.some.injEq, Prod.mk.injEq] at h
      obtain ⟨h1, -⟩ := h
      subst h1
      obtain ⟨t, kfu, w'', -, -, -, hs, heq⟩ := loadFromUrl_true hb1
      rw [heq]
      exact kmConsistent_mark (setKey_consistent hs)
    · rw [hb1, if_neg (by simp)] at h
      rcases Bool.eq_false_or_eq_true (loadFromSessionStorage (loadFromUrl w).1).2 with
        hb2 | hb2
      · rw [hb2, if_pos rfl] at h
        simp only [Option.some.injEq, Prod.mk.injEq] at h
        obtain ⟨h1, -⟩ := h
        subst h1
        obtain ⟨stored, w'', -, -, -, hs, heq⟩ := loadFromSessionStorage_true hb2
        rw [heq]
        exact kmConsistent_markSession (setKey_consistent hs)
      · rw [hb2, if_neg (by simp)] at h
        cases hg : generateNewKey (loadFromSessionStorage (loadFromUrl w).1).1 fresh with
        | none => rw [hg] at h; exact absurd h (by simp)
        | some w'' =>
            rw [hg] at h
            simp only [Option.map_some', Option.some.injEq, Prod.mk.injEq] at h
            obtain ⟨h1, -⟩ := h
            subst h1
            exact setKey_consistent hg

set_option maxRecDepth 8000 in
/-- C9 witness: `setKey` on a concrete world yields a consistent state. -/
theorem keyManager_consistency_witness :
    KMConsistent
      ⟨⟨some (List.replicate 32 5), some (exportKey (List.replicate 32 5)),
          some (generateKeyHash (exportKey (List.replicate 32 5)))⟩,
        ⟨[], [], true, some (exportKey (List.replicate 32 5))⟩,
        ⟨some (List.replicate 32 5),
          some (generateKeyHash (exportKey (List.replicate 32 5))), false⟩⟩ :=
  keyManager_consistency.1
    ⟨⟨none, none, none⟩, ⟨[], [], true, none⟩, ⟨none, none, false⟩⟩
    (exportKey (List.replicate 32 5)) _ (by decide)

/-- C6: `initialize` acquires a key in the order URL fragment, then
session storage, then fresh generation; it returns the matching outcome,
strips the fragment on URL adoption, and on every path the serialized
key ends up persisted in the session-storage slot. -/
theorem initKeyManager_acquisition (w : World) (fresh : List Nat)
    (hf : IsByteList fresh) (hlen : fresh.length = 32)
    (hss : w.browser.sessionStorageAvailable = true) :
    ∃ w' r, initKeyManager w fresh = some (w', r) ∧
      (r = InitResult.fromUrl ↔ (loadFromUrl w).2 = true) ∧
      ((loadFromUrl w).2 = false →
        (r = InitResult.fromSession ↔ (loadFromSessionStorage w).2 = true)) ∧
      ((loadFromUrl w).2 = false → (loadFromSessionStorage w).2 = false →
        r = InitResult.generated ∧ w'.km.keyString = some (exportKey fresh)) ∧
      (r = InitResult.fromUrl → w'.browser.locationHash = []) ∧
      (∃ ks, w'.km.keyString = some ks ∧ ks ≠ [] ∧ w'.browser.sessionSlot = some ks) := by
  rcases Bool.eq_false_or_eq_true (loadFromUrl w).2 with hb1 | hb1
  · obtain ⟨t, kfu, w1, hh, hq, hne, hs, heq⟩ := loadFromUrl_true hb1
    obtain ⟨k, hk, hkm, -, -, -, -, -, -, hslot⟩ := setKey_fields hs
    refine ⟨(loadFromUrl w).1, .fromUrl, ?_, ?_, ?_, ?_, ?_, ?_⟩
    · rw [initKeyManager_eq, hb1, if_pos rfl]
    · simp [hb1]
    · intro hfalse; rw [hb1] at hfalse; exact absurd hfalse (by simp)
    · intro hfalse; rw [hb1] at hfalse; exact absurd hfalse (by simp)
    · intro _; rw [heq]
    · refine ⟨kfu, ?_, hne, ?_⟩
      · rw [heq]
        show w1.km.keyString = some kfu
        rw [hkm]
      · rw [heq]
        show w1.browser.sessionSlot = some kfu
        exact hslot hss
  · have hw1 : (loadFromUrl w).1 = w := loadFromUrl_fst_of_false hb1
    rcases Bool.eq_false_or_eq_true (loadFromSessionStorage w).2 with hb2 | hb2
    · obtain ⟨stored, w1, hav, hsl, hne, hs, heq⟩ := loadFromSessionStorage_true hb2
      obtain ⟨k, hk, hkm, -, -, -, -, -, -, hslot⟩ := setKey_fields hs
      refine ⟨(loadFromSessionStorage w).1, .fromSession, ?_, ?_, ?_, ?_, ?_, ?_⟩
      · rw [initKeyManager_eq, hb1, if_neg (by simp), hw1, hb2, if_pos rfl]
      · constructor
        · intro hcon; exact absurd hcon (by simp)
        · intro hcon; rw [hb1] at hcon; exact absurd hcon (by simp)
      · intro _; simp [hb2]
      · intro _ hfalse; rw [hb2] at hfalse; exact absurd hfalse (by simp)
      · intro hcon; exact absurd hcon (by simp)
      · refine ⟨stored, ?_, hne, ?_⟩
        · rw [heq]
          show w1.km.keyString = some stored
          rw [hkm]
        · rw [heq]
          show w1.browser.sessionSlot = some stored
          exact hslot hss
    · have hw2 : (loadFromSessionStorage w).1 = w := loadFromSessionStorage_fst_of_false hb2
      cases hg : setKey w (exportKey fresh) with
      | none =>
          exfalso
          unfold setKey at hg
          rw [importKey_exportKey hf hlen] at hg
          exact absurd hg (by simp)
      | some wG =>
          obtain ⟨k, hk, hkm, -, -, -, -, -, -, hslot⟩ := setKey_fields hg
          refine ⟨wG, .generated, ?_, ?_, ?_, ?_, ?_, ?_⟩
          · rw [initKeyManager_eq, hb1, if_neg (by simp), hw1, hb2,
              if_neg (by simp), hw2]
            unfold generateNewKey
            rw [hg]
            rfl
          · constructor
            · intro hcon; exact absurd hcon (by simp)
            · intro hcon; rw [hb1] at hcon; exact absurd hcon (by simp)
          · intro _
            constructor
            · intro hcon; exact absurd hcon (by simp)
            · intro hcon; rw [hb2] at hcon; exact absurd hcon (by simp)
          · intro _ _
            exact ⟨rfl, by rw [hkm]⟩
          · intro hcon; exact absurd hcon (by simp)
          · exact ⟨exportKey fresh, by rw [hkm], exportKey_ne_nil hlen, hslot hss⟩

/-- C6 witness: a fresh context with session storage available and no
fragment generates and persists a new key. -/
theorem initKeyManager_acquisition_witness :
    ∃ w' r, initKeyManager
        ⟨⟨none, none, none⟩, ⟨[], [], true, none⟩, ⟨none, none, false⟩⟩
        (List.replicate 32 5) = some (w', r) ∧
      (r = InitResult.fromUrl ↔
        (loadFromUrl ⟨⟨none, none, none⟩, ⟨[], [], true, none⟩,
          ⟨none, none, false⟩⟩).2 = true) ∧
      ((loadFromUrl ⟨⟨none, none, none⟩, ⟨[], [], true, none⟩,
          ⟨none, none, false⟩⟩).2 = false →
        (r = InitResult.fromSession ↔
          (loadFromSessionStorage ⟨⟨none, none, none⟩, ⟨[], [], true, none⟩,
            ⟨none, none, false⟩⟩).2 = true)) ∧
      ((loadFromUrl ⟨⟨none, none, none⟩, ⟨[], [], true, none⟩,
          ⟨none, none, false⟩⟩).2 = false →
        (loadFromSessionStorage ⟨⟨none, none, none⟩, ⟨[], [], true, none⟩,
          ⟨none, none, false⟩⟩).2 = false →
        r = InitResult.generated ∧
          w'.km.keyString = some (exportKey (List.replicate 32 5))) ∧
      (r = InitResult.fromUrl → w'.browser.locationHash = []) ∧
      (∃ ks, w'.km.keyString = some ks ∧ ks ≠ [] ∧ w'.browser.sessionSlot = some ks) :=
  initKeyManager_acquisition ⟨⟨none, none, none⟩, ⟨[], [], true, none⟩, ⟨none, none, false⟩⟩
    (List.replicate 32 5) (by decide) (by decide) rfl

/-- C8: the reactive URL acquisition path is a total function (never
throws), leaves the world unchanged when the fragment is missing or
carries no non-empty `key` field, and running it twice gives the same
state as running it once. -/
theorem loadFromUrl_reactive_safe (w : World) :
    (w.browser.locationHash = [] → loadFromUrl w = (w, false)) ∧
    (∀ t, w.browser.locationHash = 35 :: t → urlParamsGet t (codes "key") = none →
      loadFromUrl w = (w, false)) ∧
    (∀ t, w.browser.locationHash = 35 :: t → urlParamsGet t (codes "key") = some [] →
      loadFromUrl w = (w, false)) ∧
    (loadFromUrl (loadFromUrl w).1).1 = (loadFromUrl w).1 := by
  refine ⟨fun hh => loadFromUrl_no_fragment hh, ?_, ?_, ?_⟩
  · intro t hh hq
    rw [loadFromUrl_fragment hh, if_pos rfl, loadFromUrlWithQuery_none hq]
  · intro t hh hq
    rw [loadFromUrl_fragment hh, if_pos rfl, loadFromUrlWithQuery_empty hq]
  · rcases Bool.eq_false_or_eq_true (loadFromUrl w).2 with hb | hb
    · obtain ⟨t, kfu, w', hh, hq, hne, hs, heq⟩ := loadFromUrl_true hb
      rw [heq, loadFromUrl_no_fragment rfl]
    · rw [loadFromUrl_fst_of_false hb, loadFromUrl_fst_of_false hb]

/-- C8 witness: a fragment `#x` with no `key` field changes nothing,
and the path is idempotent there. -/
theorem loadFromUrl_reactive_safe_witness :
    loadFromUrl ⟨⟨none, none, none⟩, ⟨[], [35, 120], true, none⟩, ⟨none, none, false⟩⟩ =
      (⟨⟨none, none, none⟩, ⟨[], [35, 120], true, none⟩, ⟨none, none, false⟩⟩, false) ∧
    (loadFromUrl (loadFromUrl ⟨⟨none, none, none⟩, ⟨[], [35, 120], true, none⟩,
        ⟨none, none, false⟩⟩).1).1 =
      (loadFromUrl ⟨⟨none, none, none⟩, ⟨[], [35, 120], true, none⟩,
        ⟨none, none, false⟩⟩).1 :=
  ⟨(loadFromUrl_reactive_safe _).2.1 [120] rfl (by decide),
    (loadFromUrl_reactive_safe _).2.2.2⟩

/-- C7: `getShareUrl` fails exactly when no key is held; otherwise it
returns the current URL whose fragment carries the serialized key under
the single field `key`, and parsing that fragment recovers the key
string. -/
theorem getShareUrl_spec (w : World) (hinv : KMConsistent w) :
    (getShareUrl w = Except.error () ↔ w.km.key = none) ∧
    (∀ ks, w.km.keyString = some ks →
      getShareUrl w =
        Except.ok (w.browser.baseUrl ++ 35 :: (codes "key=" ++ encodeURIComponent ks)) ∧
      (IsScalarStr ks →
        urlParamsGet (codes "key=" ++ encodeURIComponent ks) (codes "key") = some ks)) := by
  unfold KMConsistent at hinv
  cases hk : w.km.key with
  | none =>
      rw [hk] at hinv
      constructor
      · unfold getShareUrl
        rw [hinv]
        simp
      · intro ks hks
        rw [hinv] at hks
        exact absurd hks (by simp)
  | some k =>
      rw [hk] at hinv
      obtain ⟨ks0, hks0, hne0, -, -, -, -⟩ := hinv
      have hok : getShareUrl w =
          Except.ok (w.browser.baseUrl ++ 35 :: (codes "key=" ++ encodeURIComponent ks0)) := by
        unfold getShareUrl
        simp only [hks0, if_neg hne0]
      constructor
      · rw [hok]
        constructor
        · intro hcon; exact absurd hcon (by simp)
        · intro hcon; exact absurd hcon (by simp)
      · intro ks hks
        rw [hks0] at hks
        simp only [Option.some.injEq] at hks
        subst hks
        exact ⟨hok, fun hsc => urlParamsGet_keyFragment ks0 hsc⟩

/-- A concrete 256-bit key and a consistent world holding it, used as
witness inputs. -/
def sampleKey : List Nat := List.replicate 32 5

def sampleWorldWithKey : World :=
  ⟨⟨some sampleKey, some (exportKey sampleKey),
      some (generateKeyHash (exportKey sampleKey))⟩,
    ⟨[104], [], true, some (exportKey sampleKey)⟩,
    ⟨some sampleKey, some (generateKeyHash (exportKey sampleKey)), false⟩⟩

set_option maxRecDepth 8000 in
/-- C7 witness: a consistent world holding a concrete key. -/
theorem getShareUrl_spec_witness :
    getShareUrl sampleWorldWithKey = Except.error () ↔
      sampleWorldWithKey.km.key = none :=
  (getShareUrl_spec sampleWorldWithKey
    ⟨exportKey sampleKey, rfl, by decide, by decide, rfl, rfl, rfl⟩).1

/-! ## Store actions `info` and `fetch` (input validation) -/

/-- A hex character code, any case. -/
def isHexCode (c : Nat) : Bool :=
  decide ((48 ≤ c ∧ c ≤ 57) ∨ (97 ≤ c ∧ c ≤ 102) ∨ (65 ≤ c ∧ c ≤ 70))

/-- Modelled from the spec of `z.string().uuid()` (the zod validator the
action schemas declare, library code outside the repository): the
8-4-4-4-12 hex-group UUID shape. -/
def isUuid (s : JSStr) : Bool :=
  ((splitOnCode 45 s).map List.length = [8, 4, 4, 4, 12] : Bool) &&
    (splitOnCode 45 s).all fun p => p.all isHexCode

/-- Failure kinds of the astro actions (`ActionError` codes). -/
inductive ActionFailure
  | badRequest
  | notFound
  | internalServerError
deriving DecidableEq

/-- Response shape of the `info` action. -/
structure InfoResult where
  id : JSStr
  encryptedMetadata : JSStr
  metadataIv : JSStr
  fileIv : JSStr
  encryptionKeyHash : JSStr
  uploadedAt : JSStr
deriving DecidableEq

/-- The `info` action: the zod schema validates `fileId` as a UUID
before the handler runs; the handler looks the row up by id and returns
its fields, or `NOT_FOUND`. -/
def infoAction (db : List DbEncryptedFile) (fileId : JSStr) :
    Except ActionFailure InfoResult :=
  if ¬ isUuid fileId then .error .badRequest
  else
    match db.find? fun f => f.id == fileId with
    | none => .error .notFound
    | some f =>
        .ok ⟨f.id, f.encryptedMetadata, f.metadataIv, f.fileIv, f.encryptionKeyHash,
          natToDec f.createdAt⟩

/-- Response shape of the `fetch` action. -/
structure FetchResult where
  data : JSStr
  filename : JSStr
deriving DecidableEq

/-- The `fetch` action: UUID validation first, then read
`<fileId>.bin` from the uploads directory (modelled as an association
list from file names to contents) and return its base64. -/
def fetchAction (uploads : List (JSStr × List Nat)) (fileId : JSStr) :
    Except ActionFailure FetchResult :=
  if ¬ isUuid fileId then .error .badRequest
  else
    match uploads.find? fun e => e.1 == fileId ++ codes ".bin" with
    | none => .error .notFound
    | some e => .ok ⟨btoa e.2, fileId ++ codes ".bin"⟩

/-- C10: a `fileId` that is not UUID-shaped is rejected by input
validation in both single-record actions, independently of the database
and filesystem contents — so no lookup happens and the blob path
`<fileId>.bin` is only ever used for a UUID-shaped id. -/
theorem invalid_fileId_rejected (fileId : JSStr) (h : isUuid fileId = false) :
    (∀ db, infoAction db fileId = Except.error ActionFailure.badRequest) ∧
    (∀ uploads, fetchAction uploads fileId = Except.error ActionFailure.badRequest) ∧
    (∀ uploads r, fetchAction uploads fileId ≠ Except.ok r) := by
  have hinfo : ∀ db, infoAction db fileId = Except.error ActionFailure.badRequest := by
    intro db
    unfold infoAction
    rw [if_pos (by simp [h])]
  have hfetch : ∀ uploads, fetchAction uploads fileId =
      Except.error ActionFailure.badRequest := by
    intro uploads
    unfold fetchAction
    rw [if_pos (by simp [h])]
  refine ⟨hinfo, hfetch, fun uploads r hok => ?_⟩
  rw [hfetch uploads] at hok
  exact absurd hok (by simp)

/-- C10 witness: the id `abc` is not UUID-shaped and is rejected by
both actions for every database and uploads directory. -/
theorem invalid_fileId_rejected_witness :
    isUuid [97, 98, 99] = false ∧
    (∀ db, infoAction db [97, 98, 99] = Except.error ActionFailure.badRequest) ∧
    (∀ uploads, fetchAction uploads [97, 98, 99] =
      Except.error ActionFailure.badRequest) :=
  ⟨by decide, (invalid_fileId_rejected [97, 98, 99] (by decide)).1,
    (invalid_fileId_rejected [97, 98, 99] (by decide)).2.1⟩

end Tinybox
